import Mathlib

/-!
Verification of the AccManager cryptographic vault subsystem.

This file shallowly embeds the TypeScript source of the repository:
  - `worker-source/src/crypto.ts` (worker-side `encrypt`/`decrypt`,
    `hashPassword`/`verifyPassword`, `timingSafeEqual`, `toBase64`/`fromBase64`),
  - the client-side crypto library (`encryptData`/`decryptData`,
    `encryptObject`/`decryptObject`),
  - the client vault store (`setMasterKey`/`clearMasterKey`/`checkUnlockStatus`,
    `storeVaultSession`/`retrieveVaultSession`),
  - the worker route `resetPassword`.

JavaScript strings are modelled as lists of natural-number character codes,
byte arrays as lists of naturals below 256.  Platform primitives that the code
calls (`btoa`/`atob`, `TextEncoder`/`TextDecoder`, `crypto.subtle` AES-GCM and
PBKDF2) are modelled as executable Lean functions: `btoa`/`atob` follow the
WHATWG forgiving-base64 algorithms exactly, UTF-8 encode/decode follow the
WHATWG encoding spec, and the AES-GCM / PBKDF2 primitives are modelled at the
interface level (a CTR-style keystream cipher with an appended 16-byte
authentication tag recomputed and compared on decryption, and a deterministic
key-stretching function), which is the granularity at which the code under
verification interacts with them.
-/

set_option maxRecDepth 100000

namespace Accmanager

/-- Character codes of a Lean string literal; used to write JS strings. -/
def strCodes (s : String) : List Nat := s.data.map Char.toNat

/-! ## Base64: `btoa` and `atob` (WHATWG forgiving-base64)

`crypto.ts` builds a binary string from a `Uint8Array` and calls `btoa`
(`toBase64`), and decodes with `atob` writing char codes back into a
`Uint8Array` (`fromBase64`).  The client code does the same inline.  We model
the composition directly on byte lists. -/

/-- The base64 alphabet: value of a sextet as a character code. -/
def sextetChar (s : Nat) : Nat :=
  if s < 26 then 65 + s
  else if s < 52 then 97 + (s - 26)
  else if s < 62 then 48 + (s - 52)
  else if s = 62 then 43
  else 47

/-- Inverse of the base64 alphabet: character code to sextet value. -/
def charSextet (c : Nat) : Option Nat :=
  if 65 ≤ c ∧ c ≤ 90 then some (c - 65)
  else if 97 ≤ c ∧ c ≤ 122 then some (c - 97 + 26)
  else if 48 ≤ c ∧ c ≤ 57 then some (c - 48 + 52)
  else if c = 43 then some 62
  else if c = 47 then some 63
  else none

/-- `btoa` on a byte list: standard base64 with `=` padding (code 61). -/
def btoa : List Nat → List Nat
  | [] => []
  | [b1] => [sextetChar (b1 / 4), sextetChar (b1 % 4 * 16), 61, 61]
  | [b1, b2] => [sextetChar (b1 / 4), sextetChar (b1 % 4 * 16 + b2 / 16),
                 sextetChar (b2 % 16 * 4), 61]
  | b1 :: b2 :: b3 :: rest =>
      sextetChar (b1 / 4) :: sextetChar (b1 % 4 * 16 + b2 / 16) ::
      sextetChar (b2 % 16 * 4 + b3 / 64) :: sextetChar (b3 % 64) :: btoa rest

/-- ASCII whitespace, removed by forgiving-base64 decode. -/
def isB64Ws (c : Nat) : Bool :=
  (c == 9) || (c == 10) || (c == 12) || (c == 13) || (c == 32)

/-- Remove up to two trailing `=` from a reversed character list. -/
def stripPadRev : List Nat → List Nat
  | c1 :: c2 :: r => if c1 = 61 then (if c2 = 61 then r else c2 :: r) else c1 :: c2 :: r
  | [c1] => if c1 = 61 then [] else [c1]
  | [] => []

/-- Remove one or two trailing `=` characters (forgiving-base64 step 2). -/
def stripPad (t : List Nat) : List Nat := (stripPadRev t.reverse).reverse

/-- Decode a padding-free base64 body in groups of four sextet characters;
`none` on a character outside the alphabet or a final group of one. -/
def decodeSextets : List Nat → Option (List Nat)
  | [] => some []
  | [c1, c2] =>
      (charSextet c1).bind fun s1 =>
      (charSextet c2).bind fun s2 =>
      some [s1 * 4 + s2 / 16]
  | [c1, c2, c3] =>
      (charSextet c1).bind fun s1 =>
      (charSextet c2).bind fun s2 =>
      (charSextet c3).bind fun s3 =>
      some [s1 * 4 + s2 / 16, s2 % 16 * 16 + s3 / 4]
  | c1 :: c2 :: c3 :: c4 :: rest =>
      (charSextet c1).bind fun s1 =>
      (charSextet c2).bind fun s2 =>
      (charSextet c3).bind fun s3 =>
      (charSextet c4).bind fun s4 =>
      (decodeSextets rest).bind fun tail =>
      some ((s1 * 4 + s2 / 16) :: (s2 % 16 * 16 + s3 / 4) :: (s3 % 4 * 64 + s4) :: tail)
  | [_] => none

/-- `atob` (WHATWG forgiving-base64 decode): strip ASCII whitespace, strip up
to two trailing `=` when the length is a multiple of four, reject length ≡ 1
mod 4, decode; `none` models the thrown `InvalidCharacterError`. -/
def atob (s : List Nat) : Option (List Nat) :=
  let t := s.filter (fun c => ! isB64Ws c)
  let t := if t.length % 4 = 0 then stripPad t else t
  if t.length % 4 = 1 then none else decodeSextets t

/-! ## UTF-8: `TextEncoder.encode` and `TextDecoder.decode`

JS strings that reach the cipher are modelled as their sequences of Unicode
scalar values; `TextEncoder`/`TextDecoder` are the WHATWG UTF-8 encoder and
decoder (the decoder is total and substitutes U+FFFD for invalid input, as the
default `TextDecoder` does). -/

/-- A Unicode scalar value (what a well-formed JS string is a sequence of). -/
def ValidScalar (c : Nat) : Prop := c < 0x110000 ∧ (c < 0xD800 ∨ 0xDFFF < c)

instance : DecidablePred ValidScalar := fun c => by
  unfold ValidScalar
  infer_instance

/-- WHATWG UTF-8 encoder on a sequence of scalar values. -/
def utf8Encode : List Nat → List Nat
  | [] => []
  | c :: r =>
    (if c < 0x80 then [c]
     else if c < 0x800 then [0xC0 + c / 64, 0x80 + c % 64]
     else if c < 0x10000 then [0xE0 + c / 4096, 0x80 + c / 64 % 64, 0x80 + c % 64]
     else [0xF0 + c / 262144, 0x80 + c / 4096 % 64, 0x80 + c / 64 % 64, 0x80 + c % 64])
      ++ utf8Encode r

/-- WHATWG UTF-8 decoder, fuelled so that recursion is structural; each step
consumes at least one byte and one unit of fuel, so fuel equal to the input
length is always sufficient. -/
def utf8DecodeGo : Nat → List Nat → List Nat
  | 0, _ => []
  | _ + 1, [] => []
  | f + 1, b :: r =>
    if b < 0x80 then b :: utf8DecodeGo f r
    else if b < 0xC2 then 0xFFFD :: utf8DecodeGo f r
    else if b < 0xE0 then
      match r with
      | [] => [0xFFFD]
      | b2 :: r2 =>
        if 0x80 ≤ b2 ∧ b2 < 0xC0 then ((b - 0xC0) * 64 + (b2 - 0x80)) :: utf8DecodeGo f r2
        else 0xFFFD :: utf8DecodeGo f (b2 :: r2)
    else if b < 0xF0 then
      match r with
      | [] => [0xFFFD]
      | b2 :: r2 =>
        if (if b = 0xE0 then 0xA0 else 0x80) ≤ b2 ∧ b2 ≤ (if b = 0xED then 0x9F else 0xBF) then
          match r2 with
          | [] => [0xFFFD]
          | b3 :: r3 =>
            if 0x80 ≤ b3 ∧ b3 < 0xC0 then
              ((b - 0xE0) * 4096 + (b2 - 0x80) * 64 + (b3 - 0x80)) :: utf8DecodeGo f r3
            else 0xFFFD :: utf8DecodeGo f (b3 :: r3)
        else 0xFFFD :: utf8DecodeGo f (b2 :: r2)
    else if b < 0xF5 then
      match r with
      | [] => [0xFFFD]
      | b2 :: r2 =>
        if (if b = 0xF0 then 0x90 else 0x80) ≤ b2 ∧ b2 ≤ (if b = 0xF4 then 0x8F else 0xBF) then
          match r2 with
          | [] => [0xFFFD]
          | b3 :: r3 =>
            if 0x80 ≤ b3 ∧ b3 < 0xC0 then
              match r3 with
              | [] => [0xFFFD]
              | b4 :: r4 =>
                if 0x80 ≤ b4 ∧ b4 < 0xC0 then
                  ((b - 0xF0) * 262144 + (b2 - 0x80) * 4096 + (b3 - 0x80) * 64 + (b4 - 0x80))
                    :: utf8DecodeGo f r4
                else 0xFFFD :: utf8DecodeGo f (b4 :: r4)
            else 0xFFFD :: utf8DecodeGo f (b3 :: r3)
        else 0xFFFD :: utf8DecodeGo f (b2 :: r2)
    else 0xFFFD :: utf8DecodeGo f r

/-- `TextDecoder.decode` with the default (substituting) error mode. -/
def utf8Decode (l : List Nat) : List Nat := utf8DecodeGo l.length l

/-! ## The AES-GCM primitive (`crypto.subtle.encrypt`/`decrypt`)

The repository calls the Web Crypto AES-256-GCM primitive, which is not
repository code; it is modelled at its interface: encryption XORs the
plaintext with a keystream determined by (key, nonce) — AES-GCM is a
counter-mode cipher, so decryption applies the same keystream — and appends a
16-byte authentication tag computed from (key, nonce, ciphertext); decryption
recomputes the tag over the received ciphertext and fails (the thrown
`OperationError`) unless it equals the received tag.  The concrete keystream
and tag functions below stand in for the AES-256 counter blocks and the GHASH
tag; no theorem in this file depends on their internal structure, only on the
fact that encryption and decryption use the same functions. -/

/-- A mixing step used by the modelled keystream and tag functions. -/
def ksMix (a x : Nat) : Nat := (a * 131 + x * 2 + 253) % 65521

/-- Modelled AES-CTR keystream byte `i` under (key, nonce). -/
def keystreamByte (key nonce : List Nat) (i : Nat) : Nat :=
  (key.foldl ksMix 5381 + nonce.foldl ksMix 7919 * 31 + i * 151 + i * i * 3) % 256

/-- XOR a byte list against the keystream starting at position `i`. -/
def xorKeystream (key nonce : List Nat) : Nat → List Nat → List Nat
  | _, [] => []
  | i, b :: r => (b ^^^ keystreamByte key nonce i) :: xorKeystream key nonce (i + 1) r

/-- Modelled 16-byte GCM authentication tag over (key, nonce, ciphertext). -/
def gcmTag (key nonce ct : List Nat) : List Nat :=
  (List.range 16).map fun j =>
    ct.foldl ksMix (j * 97 + key.foldl ksMix 5381 + nonce.foldl ksMix 7919) % 256

/-- Model of `crypto.subtle.encrypt` for AES-GCM: ciphertext followed by the
16-byte tag. -/
def subtleEncrypt (key nonce pt : List Nat) : List Nat :=
  xorKeystream key nonce 0 pt ++ gcmTag key nonce (xorKeystream key nonce 0 pt)

/-- Model of `crypto.subtle.decrypt` for AES-GCM: split off the trailing
16-byte tag, recompute it over the ciphertext, and decrypt only on a match;
`none` models the thrown `OperationError`. -/
def subtleDecrypt (key nonce data : List Nat) : Option (List Nat) :=
  if data.length < 16 then none
  else if gcmTag key nonce (data.take (data.length - 16)) = data.drop (data.length - 16)
    then some (xorKeystream key nonce 0 (data.take (data.length - 16)))
    else none

/-! ## Worker `encrypt`/`decrypt` and client `encryptData`/`decryptData`

From `worker-source/src/crypto.ts` and the client crypto library.  The fresh
random nonce drawn by `crypto.getRandomValues` is passed explicitly. -/

/-- Error raised out of the decrypt path: `atob` throwing
`InvalidCharacterError`, or the AES-GCM tag check throwing `OperationError`
(the spec's `IntegrityError`). -/
inductive DecryptError
  | invalidCharacter
  | integrityError
deriving DecidableEq

deriving instance DecidableEq for Except

/-- Worker-side `encrypt` (crypto.ts): base64 of nonce ++ ciphertext-with-tag. -/
def encrypt (key nonce plaintext : List Nat) : List Nat :=
  btoa (nonce ++ subtleEncrypt key nonce (utf8Encode plaintext))

/-- Worker-side `decrypt` (crypto.ts): base64-decode, split the 12-byte nonce
off the front, and AES-GCM-decrypt the rest. -/
def decrypt (key encryptedData : List Nat) : Except DecryptError (List Nat) :=
  match atob encryptedData with
  | none => .error .invalidCharacter
  | some combined =>
    match subtleDecrypt key (combined.take 12) (combined.drop 12) with
    | none => .error .integrityError
    | some pt => .ok (utf8Decode pt)

/-- Client-side `encryptData` (lib/crypto.ts): identical wire format to the
worker's `encrypt`. -/
def encryptData (data key nonce : List Nat) : List Nat :=
  btoa (nonce ++ subtleEncrypt key nonce (utf8Encode data))

/-- Client-side `decryptData` (lib/crypto.ts). -/
def decryptData (encryptedData key : List Nat) : Except DecryptError (List Nat) :=
  match atob encryptedData with
  | none => .error .invalidCharacter
  | some combined =>
    match subtleDecrypt key (combined.take 12) (combined.drop 12) with
    | none => .error .integrityError
    | some pt => .ok (utf8Decode pt)

/-- Flip bit `i` (little-endian within each character) of a character list;
used to state the tamper-detection claim about the wire string. -/
def flipBit (i : Nat) (s : List Nat) : List Nat :=
  s.mapIdx fun j c => if j = i / 8 then c ^^^ 2 ^ (i % 8) else c

/-! ## Password hashing (`hashPassword`/`verifyPassword`, crypto.ts)

`hashPassword` draws a random 16-byte salt, derives 32 bytes with
PBKDF2-SHA-256 at 100 iterations, and formats `$pbkdf2$iterations$salt$hash`
with base64 salt and digest.  `verifyPassword` checks the `$pbkdf2$` prefix,
matches the string against `^\$pbkdf2\$(\d+)\$([^$]+)\$([^$]+)$` (modelled by
splitting on `$`), base64-decodes salt and digest with `fromBase64` (which
throws on invalid base64 — there is no try/catch around it), recomputes the
digest and compares with `timingSafeEqual`.  The `Number.isNaN` guard in the
source can never fire, since the regex group is all digits. -/

/-- Model of `crypto.subtle.deriveBits` with PBKDF2-SHA-256, 32 output bytes. -/
def pbkdf2Sha256 (pw salt : List Nat) (iterations : Nat) : List Nat :=
  (List.range 32).map fun j =>
    (pw.foldl ksMix (j * 389 + iterations * 7561) + salt.foldl ksMix (j * 523 + 77)) % 256

/-- `timingSafeEqual` (crypto.ts): length check, then OR-accumulate XOR of the
byte pairs and compare the accumulator with zero. -/
def timingSafeEqual (a b : List Nat) : Bool :=
  if a.length ≠ b.length then false
  else ((a.zip b).foldl (fun m p => m ||| (p.1 ^^^ p.2)) 0) == 0

/-- `PBKDF2_ITERATIONS_DEFAULT` (crypto.ts). -/
def PBKDF2_ITERATIONS_DEFAULT : Nat := 100

/-- Decimal rendering of a number (JS template-literal interpolation). -/
def natToDecimal (n : Nat) : List Nat := (Nat.toDigits 10 n).map Char.toNat

/-- `hashPassword` (crypto.ts) with the random salt passed explicitly:
`$pbkdf2$100$<base64 salt>$<base64 digest>`. -/
def hashPassword (salt password : List Nat) : List Nat :=
  [36] ++ strCodes "pbkdf2" ++ [36] ++ natToDecimal PBKDF2_ITERATIONS_DEFAULT ++ [36]
    ++ btoa salt ++ [36]
    ++ btoa (pbkdf2Sha256 (utf8Encode password) salt PBKDF2_ITERATIONS_DEFAULT)

/-- Split a character list at every `$` (code 36). -/
def splitDollar : List Nat → List (List Nat)
  | [] => [[]]
  | c :: r =>
    if c = 36 then [] :: splitDollar r
    else
      match splitDollar r with
      | [] => [[c]]
      | h :: t => (c :: h) :: t

/-- ASCII decimal digit. -/
def isDigit (c : Nat) : Bool := decide (48 ≤ c ∧ c ≤ 57)

/-- Value of a decimal digit string. -/
def digitsToNat (l : List Nat) : Nat := l.foldl (fun a c => a * 10 + (c - 48)) 0

/-- The regex `^\$pbkdf2\$(\d+)\$([^$]+)\$([^$]+)$` of `verifyPassword`: a
string matches exactly when splitting it on `$` yields
`["", "pbkdf2", digits⁺, part⁺, part⁺]`. -/
def parsePbkdf2 (s : List Nat) : Option (Nat × List Nat × List Nat) :=
  match splitDollar s with
  | [p0, p1, a, b, c] =>
    if p0 = [] ∧ p1 = strCodes "pbkdf2" ∧ a ≠ [] ∧ a.all isDigit ∧ b ≠ [] ∧ c ≠ []
      then some (digitsToNat a, b, c)
      else none
  | _ => none

/-- `storedHash.startsWith('$pbkdf2$')`. -/
def startsWithPbkdf2 (s : List Nat) : Bool := (strCodes "$pbkdf2$").isPrefixOf s

/-- `verifyPassword` (crypto.ts).  `fromBase64` is `atob`, whose
`InvalidCharacterError` propagates out of the function uncaught. -/
def verifyPassword (password storedHash : List Nat) : Except DecryptError Bool :=
  if ¬ startsWithPbkdf2 storedHash then .ok false
  else
    match parsePbkdf2 storedHash with
    | none => .ok false
    | some (iterations, saltB64, hashB64) =>
      match atob saltB64 with
      | none => .error .invalidCharacter
      | some salt =>
        match atob hashB64 with
        | none => .error .invalidCharacter
        | some expectedHash =>
          .ok (timingSafeEqual (pbkdf2Sha256 (utf8Encode password) salt iterations)
            expectedHash)

/-! ## Record codec (`encryptObject`/`decryptObject`, client lib/crypto.ts)

Objects are modelled as association lists in property order.  `decryptObject`
awaits all fields under `Promise.all`, writing each result into one shared
fresh object; since no field's handling depends on another's, this is modelled
by processing the entries in order, with JS-object assignment semantics
(`setKey`: overwrite in place, else append). -/

/-- A wire-object value: `string | null | number`. -/
inductive WireValue
  | wstr (s : List Nat)
  | wnull
  | wnum (n : Int)
deriving DecidableEq

/-- A value passed to `encryptObject`: the app's records hold strings, `null`,
or `undefined` in the secret positions. -/
inductive PlainValue
  | pstr (s : List Nat)
  | pnull
  | pundef
deriving DecidableEq

/-- The `'_encrypted'` suffix. -/
def encSuffix : List Nat := strCodes "_encrypted"

/-- `encryptObject`'s loop, with the supply of fresh random nonces passed
explicitly (call number `i` uses `nonces i`) and the running count of
`encryptData` invocations threaded through: `undefined` values are skipped
entirely, `null` and `''` become a null wire value without a cipher call, and
anything else is encrypted. -/
def encryptObjectGo (key : List Nat) (nonces : Nat → List Nat) :
    List (List Nat × PlainValue) → Nat → List (List Nat × WireValue) × Nat
  | [], calls => ([], calls)
  | (_, PlainValue.pundef) :: rest, calls => encryptObjectGo key nonces rest calls
  | (k, PlainValue.pnull) :: rest, calls =>
      ((k ++ encSuffix, WireValue.wnull) :: (encryptObjectGo key nonces rest calls).1,
        (encryptObjectGo key nonces rest calls).2)
  | (k, PlainValue.pstr s) :: rest, calls =>
      if s = [] then
        ((k ++ encSuffix, WireValue.wnull) :: (encryptObjectGo key nonces rest calls).1,
          (encryptObjectGo key nonces rest calls).2)
      else
        ((k ++ encSuffix, WireValue.wstr (encryptData s key (nonces calls))) ::
            (encryptObjectGo key nonces rest (calls + 1)).1,
          (encryptObjectGo key nonces rest (calls + 1)).2)

/-- `encryptObject`: the produced wire object. -/
def encryptObject (obj : List (List Nat × PlainValue)) (key : List Nat)
    (nonces : Nat → List Nat) : List (List Nat × WireValue) :=
  (encryptObjectGo key nonces obj 0).1

/-- How many times `encryptObject` invoked the cipher (`encryptData`). -/
def encryptObjectCipherCalls (obj : List (List Nat × PlainValue)) (key : List Nat)
    (nonces : Nat → List Nat) : Nat :=
  (encryptObjectGo key nonces obj 0).2

/-- `'id' | 'user_id' | 'date_modified'`: the pass-through keys. -/
def passthroughKeys : List (List Nat) :=
  [strCodes "id", strCodes "user_id", strCodes "date_modified"]

/-- `fieldKey.replace('_encrypted', '')`: remove the first occurrence. -/
def replaceFirst (pat : List Nat) : List Nat → List Nat
  | [] => []
  | c :: r => if pat.isPrefixOf (c :: r) then (c :: r).drop pat.length
              else c :: replaceFirst pat r

/-- `fieldKey.endsWith('_encrypted')`. -/
def endsWithEncrypted (k : List Nat) : Bool := encSuffix.isSuffixOf k

/-- The per-field failure marker `'[DECRYPTION FAILED]'`. -/
def sentinel : List Nat := strCodes "[DECRYPTION FAILED]"

/-- JS object property assignment on an association list: overwrite in place
if the key exists, else append. -/
def setKey : List (List Nat × WireValue) → List Nat → WireValue →
    List (List Nat × WireValue)
  | [], k, v => [(k, v)]
  | (k', v') :: rest, k, v =>
      if k' = k then (k, v) :: rest else (k', v') :: setKey rest k v

/-- Handling of one `*_encrypted` field value by `decryptObject`: a non-empty
string is decrypted, with any thrown error caught and replaced by the
sentinel; anything else becomes null. -/
def decryptField (key : List Nat) : WireValue → WireValue
  | WireValue.wstr s =>
      if 0 < s.length then
        match decryptData s key with
        | Except.ok pt => WireValue.wstr pt
        | Except.error _ => WireValue.wstr sentinel
      else WireValue.wnull
  | _ => WireValue.wnull

/-- `decryptObject`'s traversal of the wire object into the fresh result
object. -/
def decryptObjectGo (key : List Nat) :
    List (List Nat × WireValue) → List (List Nat × WireValue) →
      List (List Nat × WireValue)
  | [], acc => acc
  | (k, v) :: rest, acc =>
      decryptObjectGo key rest
        (if endsWithEncrypted k then
          setKey acc (replaceFirst encSuffix k) (decryptField key v)
         else if k ∈ passthroughKeys then setKey acc k v
         else acc)

/-- `decryptObject` (client lib/crypto.ts). -/
def decryptObject (encObj : List (List Nat × WireValue)) (key : List Nat) :
    List (List Nat × WireValue) :=
  decryptObjectGo key encObj []

/-- Association-list lookup (what reading a property of the result object
does). -/
def lookupKey (k : List Nat) : List (List Nat × WireValue) → Option WireValue
  | [] => none
  | (k', v) :: rest => if k' = k then some v else lookupKey k rest

/-- The result-object key an input entry with key `k` writes to, if any:
`*_encrypted` keys write their bare name, the three pass-through keys write
themselves, and every other key writes nothing. -/
def decOutKey (k : List Nat) : Option (List Nat) :=
  if endsWithEncrypted k then some (replaceFirst encSuffix k)
  else if k ∈ passthroughKeys then some k
  else none

/-! ## The vault store (client store.ts, `useVaultStore`)

The zustand store state together with the `sessionStorage` slot
`'accmanager-vault-session'` form the world; `Date.now()` is passed
explicitly.  `checkUnlockStatus` returns its boolean synchronously and updates
the store from the retrieved session in a `.then` continuation; the model
sequences that continuation into the returned world. -/

/-- A Web Crypto `CryptoKey`: its raw key material together with its
`extractable` attribute, fixed at creation time. -/
structure CryptoKey where
  bytes : List Nat
  extractable : Bool
deriving DecidableEq

/-- `PBKDF2_ITERATIONS` of the client crypto library: 300000. -/
def CLIENT_PBKDF2_ITERATIONS : Nat := 300000

/-- Client-side `deriveKey` (lib/crypto.ts): PBKDF2-SHA-256 over the UTF-8
encoded password and salt derives an AES-256-GCM key; the third argument of
`crypto.subtle.deriveKey` is `false`, so the resulting key is
non-extractable. -/
def deriveKey (password salt : List Nat) : CryptoKey :=
  { bytes := pbkdf2Sha256 (utf8Encode password) (utf8Encode salt)
      CLIENT_PBKDF2_ITERATIONS
    extractable := false }

structure VaultState where
  masterKey : Option CryptoKey
  userSalt : Option (List Nat)
  isUnlocked : Bool
  unlockExpiry : Option Nat
deriving DecidableEq

/-- The JSON value persisted to `sessionStorage`: the exported key bytes and
the expiry timestamp. -/
structure StoredVaultSession where
  key : List Nat
  expiry : Nat
deriving DecidableEq

structure VaultWorld where
  state : VaultState
  storage : Option StoredVaultSession
deriving DecidableEq

/-- `DEFAULT_UNLOCK_DURATION`: 15 minutes in milliseconds. -/
def DEFAULT_UNLOCK_DURATION : Nat := 15 * 60 * 1000

/-- `crypto.subtle.exportKey('raw', key)`: yields the raw key bytes for an
extractable key and throws `InvalidAccessError` (modelled as `none`) for a
non-extractable one. -/
def subtleExportKey (k : CryptoKey) : Option (List Nat) :=
  if k.extractable then some k.bytes else none

/-- `crypto.subtle.importKey('raw', bytes, 'AES-GCM', false, ...)` as called
by `retrieveVaultSession`: the imported key is itself non-extractable. -/
def importRawKey (b : List Nat) : CryptoKey := { bytes := b, extractable := false }

/-- `storeVaultSession`: export the key and serialize its bytes and the expiry
into the session-scoped slot.  The whole body sits inside `try/catch`, so when
`exportKey` throws — which it does for every non-extractable key — the error
is logged and swallowed and the slot is left untouched. -/
def storeVaultSession (key : CryptoKey) (duration now : Nat)
    (storage : Option StoredVaultSession) : Option StoredVaultSession :=
  match subtleExportKey key with
  | none => storage
  | some bytes => some { key := bytes, expiry := now + duration }

/-- `setMasterKey(key, rememberFor)`. -/
def setMasterKey (w : VaultWorld) (key : CryptoKey) (rememberFor now : Nat) : VaultWorld :=
  { state :=
      { w.state with
        masterKey := some key
        isUnlocked := true
        unlockExpiry := some (now + rememberFor) }
    storage := storeVaultSession key rememberFor now w.storage }

/-- `clearMasterKey()`. -/
def clearMasterKey (w : VaultWorld) : VaultWorld :=
  { state :=
      { w.state with
        masterKey := none
        isUnlocked := false
        unlockExpiry := none }
    storage := none }

/-- `retrieveVaultSession`: returns the imported key (if present and
unexpired) together with the storage slot afterwards (the slot is removed
when expired). -/
def retrieveVaultSession (now : Nat) (storage : Option StoredVaultSession) :
    Option CryptoKey × Option StoredVaultSession :=
  match storage with
  | none => (none, none)
  | some s => if s.expiry < now then (none, none) else (some (importRawKey s.key), some s)

/-- The truthiness test `state.masterKey && state.unlockExpiry &&
Date.now() < state.unlockExpiry`. -/
def unlockActive (st : VaultState) (now : Nat) : Bool :=
  st.masterKey.isSome &&
    (match st.unlockExpiry with
     | some e => decide (now < e)
     | none => false)

/-- `checkUnlockStatus()`: returns true only on a live in-memory key;
otherwise reports false and (asynchronously, sequenced here) restores from
the persisted session when one is present and unexpired. -/
def checkUnlockStatus (w : VaultWorld) (now : Nat) : Bool × VaultWorld :=
  if unlockActive w.state now then (true, w)
  else
    match retrieveVaultSession now w.storage with
    | (some k, storage') =>
        (false,
          { state := { w.state with masterKey := some k, isUnlocked := true }
            storage := storage' })
    | (none, storage') => (false, { w with storage := storage' })

/-! ## `resetPassword` (worker routes/auth.ts)

The D1 database rows the route touches, with the route split at its await
points: `resetValidate` is the zod parse, the token SELECT and the
used/expiry checks (no writes except none); the expired branch then runs its
DELETE; the success branch runs the three-statement `DB.batch` (atomic), which
updates the user's hash, deletes the user's sessions and marks the token
used.  The SELECT and the batch are separate statements, not one
transaction. -/

structure ResetTokenRecord where
  tokenHash : List Nat
  userId : Nat
  expiresAt : Nat
  used : Bool
deriving DecidableEq

structure Db where
  users : List (Nat × List Nat)
  sessions : List (List Nat × Nat)
  resetTokens : List ResetTokenRecord
deriving DecidableEq

/-- Model of `hashToken` (SHA-256 of the token rendered as a digit string):
a deterministic one-way digest at the interface level. -/
def hashTokenModel (t : List Nat) : List Nat :=
  (List.range 16).map fun j => 48 + t.foldl ksMix (j * 101 + 3) % 10

inductive ResetResponse
  | success
  | errValidation
  | errInvalidToken
  | errTokenUsed
  | errTokenExpired
deriving DecidableEq

/-- Outcome of the validation phase. -/
inductive ResetDecision
  | reject (resp : ResetResponse)
  | rejectExpired
  | proceed (userId : Nat)
deriving DecidableEq

/-- The token SELECT. -/
def findToken (db : Db) (th : List Nat) : Option ResetTokenRecord :=
  db.resetTokens.find? fun r => r.tokenHash == th

/-- The read-only validation phase of `resetPassword`: zod schema
(`token.min(10)`, `newPassword.min(12)`), token lookup, used flag, expiry. -/
def resetValidate (db : Db) (token newPassword : List Nat) (now : Nat) : ResetDecision :=
  if token.length < 10 ∨ newPassword.length < 12 then .reject .errValidation
  else
    match findToken db (hashTokenModel token) with
    | none => .reject .errInvalidToken
    | some r =>
      if r.used then .reject .errTokenUsed
      else if r.expiresAt < now then .rejectExpired
      else .proceed r.userId

/-- `DELETE FROM password_reset_tokens WHERE token_hash = ?`. -/
def deleteToken (db : Db) (th : List Nat) : Db :=
  { db with resetTokens := db.resetTokens.filter fun r => !(r.tokenHash == th) }

/-- The success-path `DB.batch`: update the user's password hash, delete all
of the user's sessions, mark the token used. -/
def applyResetBatch (db : Db) (th : List Nat) (uid : Nat) (newHash : List Nat) : Db :=
  { users := db.users.map fun u => if u.1 = uid then (u.1, newHash) else u,
    sessions := db.sessions.filter fun s => !(s.2 == uid),
    resetTokens := db.resetTokens.map fun r =>
      if r.tokenHash = th then { r with used := true } else r }

/-- The write phase corresponding to a validation decision. -/
def applyDecision (db : Db) (token newPassword salt : List Nat) :
    ResetDecision → ResetResponse × Db
  | .reject resp => (resp, db)
  | .rejectExpired => (.errTokenExpired, deleteToken db (hashTokenModel token))
  | .proceed uid =>
      (.success, applyResetBatch db (hashTokenModel token) uid (hashPassword salt newPassword))

/-- `resetPassword` handling one request alone: validate, then write.  The
random salt drawn inside `hashPassword` is passed explicitly. -/
def resetPassword (db : Db) (token newPassword salt : List Nat) (now : Nat) :
    ResetResponse × Db :=
  applyDecision db token newPassword salt (resetValidate db token newPassword now)

/-- Two concurrent redemptions of the same token, interleaved so that both
requests run their validation SELECT before either runs its write batch — a
possible execution, since the SELECT and the batch are separate awaited
statements. -/
def interleavedDoubleRedeem (db : Db) (token pw1 pw2 salt1 salt2 : List Nat) (now : Nat) :
    ResetResponse × ResetResponse × Db :=
  ((applyDecision db token pw1 salt1 (resetValidate db token pw1 now)).1,
   (applyDecision (applyDecision db token pw1 salt1 (resetValidate db token pw1 now)).2
      token pw2 salt2 (resetValidate db token pw2 now)).1,
   (applyDecision (applyDecision db token pw1 salt1 (resetValidate db token pw1 now)).2
      token pw2 salt2 (resetValidate db token pw2 now)).2)

/-- The unpadded base64 body of a byte list (what remains of `btoa` after the
`=` padding is stripped). -/
def b64body : List Nat → List Nat
  | [] => []
  | [b1] => [sextetChar (b1 / 4), sextetChar (b1 % 4 * 16)]
  | [b1, b2] => [sextetChar (b1 / 4), sextetChar (b1 % 4 * 16 + b2 / 16),
                 sextetChar (b2 % 16 * 4)]
  | b1 :: b2 :: b3 :: rest =>
      sextetChar (b1 / 4) :: sextetChar (b1 % 4 * 16 + b2 / 16) ::
      sextetChar (b2 % 16 * 4 + b3 / 64) :: sextetChar (b3 % 64) :: b64body rest

end Accmanager

namespace Accmanager

/-! ## Base64 lemmas -/

/-- Induction principle grouping a list into leading blocks of three. -/
theorem chunk3Induction {P : List Nat → Prop} (h0 : P []) (h1 : ∀ a, P [a])
    (h2 : ∀ a b, P [a, b]) (h3 : ∀ a b c l, P l → P (a :: b :: c :: l)) :
    ∀ l, P l
  | [] => h0
  | [a] => h1 a
  | [a, b] => h2 a b
  | a :: b :: c :: l => h3 a b c l (chunk3Induction h0 h1 h2 h3 l)

theorem sextetChar_bounds (s : Nat) : 43 ≤ sextetChar s ∧ sextetChar s ≤ 122 := by
  unfold sextetChar
  split_ifs <;> omega

theorem sextetChar_ne_61 (s : Nat) : sextetChar s ≠ 61 := by
  unfold sextetChar
  split_ifs <;> omega

theorem sextetChar_ne_36 (s : Nat) : sextetChar s ≠ 36 := by
  have h := sextetChar_bounds s
  omega

theorem charSextet_sextetChar {s : Nat} (h : s < 64) :
    charSextet (sextetChar s) = some s := by
  revert h
  revert s
  decide

theorem not_isB64Ws_of_bounds {c : Nat} (h : 43 ≤ c) : (! isB64Ws c) = true := by
  simp only [isB64Ws, Bool.not_eq_true', Bool.or_eq_false_iff, beq_eq_false_iff_ne,
    ne_eq]
  omega

theorem btoa_mem_bounds : ∀ bs, ∀ c ∈ btoa bs, 43 ≤ c ∧ c ≤ 122 := by
  intro bs
  induction bs using chunk3Induction with
  | h0 => intro c hc; simp [btoa] at hc
  | h1 a =>
      intro c hc
      simp only [btoa, List.mem_cons, List.mem_singleton, List.not_mem_nil, or_false] at hc
      rcases hc with h | h | h | h <;> subst h <;>
        first
          | exact sextetChar_bounds _
          | omega
  | h2 a b =>
      intro c hc
      simp only [btoa, List.mem_cons, List.mem_singleton, List.not_mem_nil, or_false] at hc
      rcases hc with h | h | h | h <;> subst h <;>
        first
          | exact sextetChar_bounds _
          | omega
  | h3 a b c l ih =>
      intro x hx
      simp only [btoa, List.mem_cons] at hx
      rcases hx with h | h | h | h | h
      · subst h; exact sextetChar_bounds _
      · subst h; exact sextetChar_bounds _
      · subst h; exact sextetChar_bounds _
      · subst h; exact sextetChar_bounds _
      · exact ih x h

theorem btoa_filter_noop (bs : List Nat) :
    (btoa bs).filter (fun c => ! isB64Ws c) = btoa bs := by
  apply List.filter_eq_self.mpr
  intro a ha
  exact not_isB64Ws_of_bounds (btoa_mem_bounds bs a ha).1

theorem btoa_length_mod (bs : List Nat) : (btoa bs).length % 4 = 0 := by
  induction bs using chunk3Induction with
  | h0 => simp [btoa]
  | h1 a => simp [btoa]
  | h2 a b => simp [btoa]
  | h3 a b c l ih => simp only [btoa, List.length_cons]; omega

theorem stripPad_append (xs ys : List Nat) (h : 2 ≤ ys.length) :
    stripPad (xs ++ ys) = xs ++ stripPad ys := by
  obtain ⟨a, b, r, hrev⟩ : ∃ a b r, ys.reverse = a :: b :: r := by
    have h2 : 2 ≤ ys.reverse.length := by simpa using h
    rcases hy : ys.reverse with _ | ⟨a, _ | ⟨b, r⟩⟩
    · rw [hy] at h2; simp at h2
    · rw [hy] at h2; simp at h2
    · exact ⟨a, b, r, rfl⟩
  have hrev2 : (xs ++ ys).reverse = a :: b :: (r ++ xs.reverse) := by
    simp [hrev]
  unfold stripPad
  rw [hrev, hrev2]
  simp only [stripPadRev]
  split_ifs <;> simp

theorem stripPad_btoa : ∀ bs, stripPad (btoa bs) = b64body bs := by
  intro bs
  induction bs using chunk3Induction with
  | h0 => simp [btoa, b64body, stripPad, stripPadRev]
  | h1 a =>
      show stripPad [sextetChar (a / 4), sextetChar (a % 4 * 16), 61, 61] = _
      unfold stripPad
      simp [b64body, stripPadRev]
  | h2 a b =>
      show stripPad [sextetChar (a / 4), sextetChar (a % 4 * 16 + b / 16),
        sextetChar (b % 16 * 4), 61] = _
      unfold stripPad
      simp [b64body, stripPadRev, sextetChar_ne_61]
  | h3 a b c l ih =>
      rcases hl : l with _ | ⟨x, l'⟩
      · show stripPad [sextetChar (a / 4), sextetChar (a % 4 * 16 + b / 16),
          sextetChar (b % 16 * 4 + c / 64), sextetChar (c % 64)] = _
        unfold stripPad
        simp [b64body, stripPadRev, sextetChar_ne_61]
      · subst hl
        have hlen : 2 ≤ (btoa (x :: l')).length := by
          have h4 := btoa_length_mod (x :: l')
          have : btoa (x :: l') ≠ [] := by
            rcases l' with _ | ⟨y, l''⟩
            · simp [btoa]
            · rcases l'' with _ | ⟨z, l₃⟩ <;> simp [btoa]
          have := List.length_pos.mpr this
          omega
        show stripPad ([sextetChar (a / 4), sextetChar (a % 4 * 16 + b / 16),
          sextetChar (b % 16 * 4 + c / 64), sextetChar (c % 64)] ++ btoa (x :: l')) = _
        rw [stripPad_append _ _ hlen, ih]
        simp [b64body]

theorem b64body_length_mod (bs : List Nat) : (b64body bs).length % 4 ≠ 1 := by
  induction bs using chunk3Induction with
  | h0 => simp [b64body]
  | h1 a => simp [b64body]
  | h2 a b => simp [b64body]
  | h3 a b c l ih => simp only [b64body, List.length_cons]; omega

theorem decodeSextets_b64body :
    ∀ bs, (∀ b ∈ bs, b < 256) → decodeSextets (b64body bs) = some bs := by
  intro bs
  induction bs using chunk3Induction with
  | h0 => intro _; simp [b64body, decodeSextets]
  | h1 a =>
      intro hb
      have ha : a < 256 := hb a (by simp)
      have h1 : a / 4 < 64 := by omega
      have h2 : a % 4 * 16 < 64 := by omega
      simp only [b64body, decodeSextets, charSextet_sextetChar h1,
        charSextet_sextetChar h2, Option.some_bind']
      simp only [Option.some.injEq, List.cons.injEq, and_true]
      omega
  | h2 a b =>
      intro hb
      have ha : a < 256 := hb a (by simp)
      have hb' : b < 256 := hb b (by simp)
      have h1 : a / 4 < 64 := by omega
      have h2 : a % 4 * 16 + b / 16 < 64 := by omega
      have h3 : b % 16 * 4 < 64 := by omega
      simp only [b64body, decodeSextets, charSextet_sextetChar h1,
        charSextet_sextetChar h2, charSextet_sextetChar h3, Option.some_bind']
      simp only [Option.some.injEq, List.cons.injEq, and_true]
      omega
  | h3 a b c l ih =>
      intro hb
      have ha : a < 256 := hb a (by simp)
      have hb' : b < 256 := hb b (by simp)
      have hc : c < 256 := hb c (by simp)
      have h1 : a / 4 < 64 := by omega
      have h2 : a % 4 * 16 + b / 16 < 64 := by omega
      have h3' : b % 16 * 4 + c / 64 < 64 := by omega
      have h4 : c % 64 < 64 := by omega
      have htail : decodeSextets (b64body l) = some l :=
        ih (fun x hx => hb x (by simp [hx]))
      show decodeSextets (sextetChar (a / 4) :: sextetChar (a % 4 * 16 + b / 16) ::
        sextetChar (b % 16 * 4 + c / 64) :: sextetChar (c % 64) :: b64body l) = _
      simp only [decodeSextets, charSextet_sextetChar h1, charSextet_sextetChar h2,
        charSextet_sextetChar h3', charSextet_sextetChar h4, htail, Option.some_bind']
      simp only [Option.some.injEq, List.cons.injEq, and_true]
      omega

/-- Forgiving-base64 decoding inverts `btoa` on byte lists. -/
theorem atob_btoa (bs : List Nat) (h : ∀ b ∈ bs, b < 256) :
    atob (btoa bs) = some bs := by
  unfold atob
  simp only [btoa_filter_noop]
  rw [if_pos (btoa_length_mod bs), stripPad_btoa,
    if_neg (b64body_length_mod bs)]
  exact decodeSextets_b64body bs h

/-! ## UTF-8 lemmas -/

theorem utf8DecodeGo_one (f b : Nat) (rest : List Nat) (h1 : b < 0x80) :
    utf8DecodeGo (f + 1) (b :: rest) = b :: utf8DecodeGo f rest := by
  simp only [utf8DecodeGo]
  rw [if_pos h1]

theorem utf8DecodeGo_two (f b b2 : Nat) (rest : List Nat) (h1 : 0xC2 ≤ b) (h2 : b < 0xE0)
    (h3 : 0x80 ≤ b2) (h4 : b2 < 0xC0) :
    utf8DecodeGo (f + 1) (b :: b2 :: rest) =
      ((b - 0xC0) * 64 + (b2 - 0x80)) :: utf8DecodeGo f rest := by
  simp only [utf8DecodeGo]
  rw [if_neg (by omega), if_neg (by omega), if_pos (by omega), if_pos ⟨h3, h4⟩]

theorem utf8DecodeGo_three (f b b2 b3 : Nat) (rest : List Nat)
    (h1 : 0xE0 ≤ b) (h2 : b < 0xF0)
    (h3 : (if b = 0xE0 then 0xA0 else 0x80) ≤ b2) (h4 : b2 ≤ (if b = 0xED then 0x9F else 0xBF))
    (h5 : 0x80 ≤ b3) (h6 : b3 < 0xC0) :
    utf8DecodeGo (f + 1) (b :: b2 :: b3 :: rest) =
      ((b - 0xE0) * 4096 + (b2 - 0x80) * 64 + (b3 - 0x80)) :: utf8DecodeGo f rest := by
  simp only [utf8DecodeGo]
  rw [if_neg (by omega), if_neg (by omega), if_neg (by omega), if_pos (by omega),
    if_pos ⟨h3, h4⟩, if_pos ⟨h5, h6⟩]

theorem utf8DecodeGo_four (f b b2 b3 b4 : Nat) (rest : List Nat)
    (h1 : 0xF0 ≤ b) (h2 : b < 0xF5)
    (h3 : (if b = 0xF0 then 0x90 else 0x80) ≤ b2) (h4 : b2 ≤ (if b = 0xF4 then 0x8F else 0xBF))
    (h5 : 0x80 ≤ b3) (h6 : b3 < 0xC0) (h7 : 0x80 ≤ b4) (h8 : b4 < 0xC0) :
    utf8DecodeGo (f + 1) (b :: b2 :: b3 :: b4 :: rest) =
      ((b - 0xF0) * 262144 + (b2 - 0x80) * 4096 + (b3 - 0x80) * 64 + (b4 - 0x80))
        :: utf8DecodeGo f rest := by
  simp only [utf8DecodeGo]
  rw [if_neg (by omega), if_neg (by omega), if_neg (by omega), if_neg (by omega),
    if_pos (by omega), if_pos ⟨h3, h4⟩, if_pos ⟨h5, h6⟩, if_pos ⟨h7, h8⟩]

theorem utf8DecodeGo_encode :
    ∀ s : List Nat, (∀ c ∈ s, ValidScalar c) → ∀ extra,
      utf8DecodeGo ((utf8Encode s).length + extra) (utf8Encode s) = s := by
  intro s
  induction s with
  | nil =>
      intro _ extra
      cases extra <;> simp [utf8Encode, utf8DecodeGo]
  | cons c r ih =>
      intro hv extra
      obtain ⟨hlt, hsur⟩ : ValidScalar c := hv c (by simp)
      have hr : ∀ x ∈ r, ValidScalar x := fun x hx => hv x (by simp [hx])
      by_cases h1 : c < 0x80
      · have he : utf8Encode (c :: r) = c :: utf8Encode r := by
          simp [utf8Encode, if_pos h1]
        rw [he]
        have hf : (c :: utf8Encode r).length + extra =
            ((utf8Encode r).length + extra) + 1 := by simp; omega
        rw [hf, utf8DecodeGo_one _ _ _ h1, ih hr extra]
      · by_cases h2 : c < 0x800
        · have he : utf8Encode (c :: r) =
              (0xC0 + c / 64) :: (0x80 + c % 64) :: utf8Encode r := by
            simp [utf8Encode, if_neg h1, if_pos h2]
          rw [he]
          have hf : ((0xC0 + c / 64) :: (0x80 + c % 64) :: utf8Encode r).length + extra =
              ((utf8Encode r).length + (1 + extra)) + 1 := by simp; omega
          rw [hf, utf8DecodeGo_two _ _ _ _ (by omega) (by omega) (by omega) (by omega),
            ih hr (1 + extra)]
          have : (0xC0 + c / 64 - 0xC0) * 64 + (0x80 + c % 64 - 0x80) = c := by omega
          rw [this]
        · by_cases h3 : c < 0x10000
          · have he : utf8Encode (c :: r) =
                (0xE0 + c / 4096) :: (0x80 + c / 64 % 64) :: (0x80 + c % 64) ::
                  utf8Encode r := by
              simp [utf8Encode, if_neg h1, if_neg h2, if_pos h3]
            rw [he]
            have hf : ((0xE0 + c / 4096) :: (0x80 + c / 64 % 64) :: (0x80 + c % 64) ::
                utf8Encode r).length + extra =
                ((utf8Encode r).length + (2 + extra)) + 1 := by simp; omega
            rw [hf, utf8DecodeGo_three _ _ _ _ _ (by omega) (by omega)
              (by rcases hsur with h | h <;> (split_ifs <;> omega))
              (by rcases hsur with h | h <;> (split_ifs <;> omega))
              (by omega) (by omega), ih hr (2 + extra)]
            have : (0xE0 + c / 4096 - 0xE0) * 4096 + (0x80 + c / 64 % 64 - 0x80) * 64 +
                (0x80 + c % 64 - 0x80) = c := by omega
            rw [this]
          · have he : utf8Encode (c :: r) =
                (0xF0 + c / 262144) :: (0x80 + c / 4096 % 64) :: (0x80 + c / 64 % 64) ::
                  (0x80 + c % 64) :: utf8Encode r := by
              simp [utf8Encode, if_neg h1, if_neg h2, if_neg h3]
            rw [he]
            have hf : ((0xF0 + c / 262144) :: (0x80 + c / 4096 % 64) :: (0x80 + c / 64 % 64) ::
                (0x80 + c % 64) :: utf8Encode r).length + extra =
                ((utf8Encode r).length + (3 + extra)) + 1 := by simp; omega
            rw [hf, utf8DecodeGo_four _ _ _ _ _ _ (by omega) (by omega)
              (by split_ifs <;> omega) (by split_ifs <;> omega)
              (by omega) (by omega) (by omega) (by omega), ih hr (3 + extra)]
            have : (0xF0 + c / 262144 - 0xF0) * 262144 + (0x80 + c / 4096 % 64 - 0x80) * 4096 +
                (0x80 + c / 64 % 64 - 0x80) * 64 + (0x80 + c % 64 - 0x80) = c := by omega
            rw [this]

/-- The WHATWG UTF-8 decoder inverts the encoder on valid scalar sequences. -/
theorem utf8Decode_encode (s : List Nat) (h : ∀ c ∈ s, ValidScalar c) :
    utf8Decode (utf8Encode s) = s := by
  have := utf8DecodeGo_encode s h 0
  simpa [utf8Decode] using this

theorem utf8Encode_bounds :
    ∀ s : List Nat, (∀ c ∈ s, c < 0x110000) → ∀ b ∈ utf8Encode s, b < 256 := by
  intro s
  induction s with
  | nil => intro _ b hb; simp [utf8Encode] at hb
  | cons c r ih =>
      intro hv b hb
      have hc : c < 0x110000 := hv c (by simp)
      have hr : ∀ x ∈ r, x < 0x110000 := fun x hx => hv x (by simp [hx])
      simp only [utf8Encode, List.mem_append] at hb
      rcases hb with hb | hb
      · split_ifs at hb <;> simp only [List.mem_cons, List.mem_singleton,
          List.not_mem_nil, or_false] at hb <;> rcases hb with h | h | h | h <;> omega
      · exact ih hr b hb

/-! ## Cipher-layer lemmas -/

theorem keystreamByte_lt (key nonce : List Nat) (i : Nat) :
    keystreamByte key nonce i < 256 :=
  Nat.mod_lt _ (by omega)

theorem xorKeystream_length (key nonce : List Nat) :
    ∀ i l, (xorKeystream key nonce i l).length = l.length := by
  intro i l
  induction l generalizing i with
  | nil => simp [xorKeystream]
  | cons b r ih => simp [xorKeystream, ih]

theorem xorKeystream_bounds (key nonce : List Nat) :
    ∀ i l, (∀ b ∈ l, b < 256) → ∀ b ∈ xorKeystream key nonce i l, b < 256 := by
  intro i l
  induction l generalizing i with
  | nil => intro _ b hb; simp [xorKeystream] at hb
  | cons x r ih =>
      intro hl b hb
      simp only [xorKeystream, List.mem_cons] at hb
      rcases hb with hb | hb
      · subst hb
        have h1 : x < 2 ^ 8 := by have := hl x (by simp); omega
        have h2 : keystreamByte key nonce i < 2 ^ 8 := by
          have := keystreamByte_lt key nonce i; omega
        have := Nat.xor_lt_two_pow h1 h2
        omega
      · exact ih (i + 1) (fun y hy => hl y (by simp [hy])) b hb

theorem xorKeystream_invol (key nonce : List Nat) :
    ∀ i l, xorKeystream key nonce i (xorKeystream key nonce i l) = l := by
  intro i l
  induction l generalizing i with
  | nil => simp [xorKeystream]
  | cons b r ih =>
      simp only [xorKeystream, List.cons.injEq]
      exact ⟨Nat.xor_cancel_right _ _, ih (i + 1)⟩

theorem gcmTag_length (key nonce ct : List Nat) : (gcmTag key nonce ct).length = 16 := by
  simp [gcmTag]

theorem gcmTag_bounds (key nonce ct : List Nat) : ∀ b ∈ gcmTag key nonce ct, b < 256 := by
  intro b hb
  simp only [gcmTag, List.mem_map] at hb
  obtain ⟨j, _, hj⟩ := hb
  omega

theorem subtleDecrypt_subtleEncrypt (key nonce pt : List Nat) :
    subtleDecrypt key nonce (subtleEncrypt key nonce pt) = some pt := by
  unfold subtleEncrypt subtleDecrypt
  have hlen : (xorKeystream key nonce 0 pt ++ gcmTag key nonce
      (xorKeystream key nonce 0 pt)).length =
      (xorKeystream key nonce 0 pt).length + 16 := by
    simp [gcmTag_length]
  rw [if_neg (by omega), hlen]
  rw [List.take_left' (by omega), List.drop_left' (by omega)]
  rw [if_pos rfl, xorKeystream_invol]

theorem subtleEncrypt_bounds (key nonce pt : List Nat) (h : ∀ b ∈ pt, b < 256) :
    ∀ b ∈ subtleEncrypt key nonce pt, b < 256 := by
  intro b hb
  unfold subtleEncrypt at hb
  simp only [List.mem_append] at hb
  rcases hb with hb | hb
  · exact xorKeystream_bounds key nonce 0 pt h b hb
  · exact gcmTag_bounds key nonce _ b hb

/-- Core round trip for the worker pair: decrypt inverts encrypt. -/
theorem decrypt_encrypt_core (key nonce pt : List Nat) (h12 : nonce.length = 12)
    (hn : ∀ b ∈ nonce, b < 256) (hs : ∀ c ∈ pt, ValidScalar c) :
    decrypt key (encrypt key nonce pt) = .ok pt := by
  have hbounds : ∀ b ∈ nonce ++ subtleEncrypt key nonce (utf8Encode pt), b < 256 := by
    intro b hb
    rcases List.mem_append.mp hb with hb | hb
    · exact hn b hb
    · exact subtleEncrypt_bounds key nonce _
        (utf8Encode_bounds pt (fun c hc => (hs c hc).1)) b hb
  unfold encrypt decrypt
  rw [atob_btoa _ hbounds]
  simp only [List.take_left' h12, List.drop_left' h12,
    subtleDecrypt_subtleEncrypt]
  rw [utf8Decode_encode pt hs]

/-- `decryptData`/`encryptData` coincide with the worker pair up to argument
order. -/
theorem decryptData_eq_decrypt (w key : List Nat) : decryptData w key = decrypt key w := rfl

theorem encryptData_eq_encrypt (d key nonce : List Nat) :
    encryptData d key nonce = encrypt key nonce d := rfl

/-- `decrypt` returns a plaintext only when the recomputed tag over the decoded
nonce and ciphertext equals the stored tag. -/
theorem decrypt_ok_tag_valid (key w q : List Nat) (h : decrypt key w = .ok q) :
    ∃ combined, atob w = some combined ∧
      16 ≤ (combined.drop 12).length ∧
      gcmTag key (combined.take 12)
        ((combined.drop 12).take ((combined.drop 12).length - 16)) =
        (combined.drop 12).drop ((combined.drop 12).length - 16) ∧
      q = utf8Decode (xorKeystream key (combined.take 12) 0
        ((combined.drop 12).take ((combined.drop 12).length - 16))) := by
  rcases ha : atob w with _ | c
  · have hd : decrypt key w = .error .invalidCharacter := by
      unfold decrypt; rw [ha]
    rw [hd] at h; exact absurd h (by simp)
  · rcases hs : subtleDecrypt key (c.take 12) (c.drop 12) with _ | pt
    · have hd : decrypt key w = .error .integrityError := by
        unfold decrypt
        rw [ha]
        show (match subtleDecrypt key (c.take 12) (c.drop 12) with
          | none => Except.error DecryptError.integrityError
          | some pt => Except.ok (utf8Decode pt)) = Except.error DecryptError.integrityError
        rw [hs]
      rw [hd] at h; exact absurd h (by simp)
    · have hd : decrypt key w = .ok (utf8Decode pt) := by
        unfold decrypt
        rw [ha]
        show (match subtleDecrypt key (c.take 12) (c.drop 12) with
          | none => Except.error DecryptError.integrityError
          | some pt => Except.ok (utf8Decode pt)) = Except.ok (utf8Decode pt)
        rw [hs]
      rw [hd] at h
      have hq : q = utf8Decode pt := by
        have h' := h.symm
        simpa [Except.ok.injEq] using h'
      unfold subtleDecrypt at hs
      split_ifs at hs with h1 h2
      have hpt : xorKeystream key (c.take 12) 0
          ((c.drop 12).take ((c.drop 12).length - 16)) = pt := Option.some.inj hs
      exact ⟨c, rfl, by omega, h2, by rw [hq, hpt]⟩

/-- Altering the stored tag in any way (while keeping the nonce and ciphertext
bytes) makes `decrypt` fail with the integrity error. -/
theorem decrypt_altered_tag (key nonce pt tag' : List Nat) (h12 : nonce.length = 12)
    (hn : ∀ b ∈ nonce, b < 256) (hs : ∀ c ∈ pt, ValidScalar c)
    (htl : tag'.length = 16) (htb : ∀ b ∈ tag', b < 256)
    (hne : tag' ≠ gcmTag key nonce (xorKeystream key nonce 0 (utf8Encode pt))) :
    decrypt key (btoa (nonce ++ (xorKeystream key nonce 0 (utf8Encode pt) ++ tag'))) =
      .error .integrityError := by
  have hctb : ∀ b ∈ xorKeystream key nonce 0 (utf8Encode pt), b < 256 :=
    xorKeystream_bounds key nonce 0 _
      (utf8Encode_bounds pt (fun c hc => (hs c hc).1))
  have hbounds : ∀ b ∈ nonce ++ (xorKeystream key nonce 0 (utf8Encode pt) ++ tag'),
      b < 256 := by
    intro b hb
    rcases List.mem_append.mp hb with hb | hb
    · exact hn b hb
    · rcases List.mem_append.mp hb with hb | hb
      · exact hctb b hb
      · exact htb b hb
  unfold decrypt
  rw [atob_btoa _ hbounds]
  simp only [List.take_left' h12, List.drop_left' h12]
  unfold subtleDecrypt
  have hlen : (xorKeystream key nonce 0 (utf8Encode pt) ++ tag').length =
      (xorKeystream key nonce 0 (utf8Encode pt)).length + 16 := by simp [htl]
  rw [if_neg (by omega)]
  rw [hlen]
  rw [List.take_left' (by omega), List.drop_left' (by omega)]
  rw [if_neg (fun hh => hne hh.symm)]

/-! ## Password-hashing lemmas -/

theorem timingSafeEqual_foldl (a : List Nat) :
    ∀ m, ((a.zip a).foldl (fun m p => m ||| (p.1 ^^^ p.2)) m) = m := by
  induction a with
  | nil => intro m; simp
  | cons x r ih =>
      intro m
      simp only [List.zip_cons_cons, List.foldl_cons, Nat.xor_self, Nat.or_zero]
      exact ih m

theorem timingSafeEqual_self (a : List Nat) : timingSafeEqual a a = true := by
  unfold timingSafeEqual
  rw [if_neg (by simp)]
  simp [timingSafeEqual_foldl]

theorem splitDollar_not_mem (xs : List Nat) (h : 36 ∉ xs) : splitDollar xs = [xs] := by
  induction xs with
  | nil => simp [splitDollar]
  | cons c r ih =>
      have hc : c ≠ 36 := fun hh => h (by simp [hh])
      have hr : 36 ∉ r := fun hh => h (by simp [hh])
      simp only [splitDollar, if_neg hc, ih hr]

theorem splitDollar_append (xs ys : List Nat) (h : 36 ∉ xs) :
    splitDollar (xs ++ 36 :: ys) = xs :: splitDollar ys := by
  induction xs with
  | nil => simp [splitDollar]
  | cons c r ih =>
      have hc : c ≠ 36 := fun hh => h (by simp [hh])
      have hr : 36 ∉ r := fun hh => h (by simp [hh])
      simp only [List.cons_append, splitDollar, if_neg hc, List.append_eq]
      rw [ih hr]

theorem btoa_not_mem_36 (bs : List Nat) : 36 ∉ btoa bs := by
  intro h
  have := btoa_mem_bounds bs 36 h
  omega

theorem btoa_ne_nil (bs : List Nat) (h : bs ≠ []) : btoa bs ≠ [] := by
  rcases bs with _ | ⟨a, _ | ⟨b, _ | ⟨c, r⟩⟩⟩ <;> simp [btoa] at h ⊢

theorem splitDollar_hashPassword (salt password : List Nat) :
    splitDollar (hashPassword salt password) =
      [[], strCodes "pbkdf2", natToDecimal PBKDF2_ITERATIONS_DEFAULT, btoa salt,
        btoa (pbkdf2Sha256 (utf8Encode password) salt PBKDF2_ITERATIONS_DEFAULT)] := by
  unfold hashPassword
  have h1 : (36 : Nat) ∉ strCodes "pbkdf2" := by decide
  have h2 : (36 : Nat) ∉ natToDecimal PBKDF2_ITERATIONS_DEFAULT := by decide
  have h3 : (36 : Nat) ∉ btoa salt := btoa_not_mem_36 salt
  have h4 : (36 : Nat) ∉
      btoa (pbkdf2Sha256 (utf8Encode password) salt PBKDF2_ITERATIONS_DEFAULT) :=
    btoa_not_mem_36 _
  have hshape : [(36 : Nat)] ++ strCodes "pbkdf2" ++ [36] ++
      natToDecimal PBKDF2_ITERATIONS_DEFAULT ++ [36] ++ btoa salt ++ [36] ++
      btoa (pbkdf2Sha256 (utf8Encode password) salt PBKDF2_ITERATIONS_DEFAULT) =
      ([] : List Nat) ++ 36 :: (strCodes "pbkdf2" ++ 36 ::
        (natToDecimal PBKDF2_ITERATIONS_DEFAULT ++ 36 :: (btoa salt ++ 36 ::
          btoa (pbkdf2Sha256 (utf8Encode password) salt
            PBKDF2_ITERATIONS_DEFAULT)))) := by
    simp
  rw [hshape]
  rw [splitDollar_append _ _ (by simp), splitDollar_append _ _ h1,
    splitDollar_append _ _ h2, splitDollar_append _ _ h3, splitDollar_not_mem _ h4]

theorem natToDecimal_100_digits :
    natToDecimal PBKDF2_ITERATIONS_DEFAULT = [49, 48, 48] := by decide

theorem parsePbkdf2_hashPassword (salt password : List Nat) (hsalt : salt ≠ []) :
    parsePbkdf2 (hashPassword salt password) =
      some (PBKDF2_ITERATIONS_DEFAULT, btoa salt,
        btoa (pbkdf2Sha256 (utf8Encode password) salt PBKDF2_ITERATIONS_DEFAULT)) := by
  unfold parsePbkdf2
  rw [splitDollar_hashPassword]
  dsimp only
  rw [if_pos]
  · have : digitsToNat (natToDecimal PBKDF2_ITERATIONS_DEFAULT) =
        PBKDF2_ITERATIONS_DEFAULT := by decide
    rw [this]
  · refine ⟨rfl, rfl, by decide, by decide, btoa_ne_nil salt hsalt, btoa_ne_nil _ ?_⟩
    simp [pbkdf2Sha256]

theorem startsWithPbkdf2_hashPassword (salt password : List Nat) :
    startsWithPbkdf2 (hashPassword salt password) = true := by
  unfold startsWithPbkdf2 hashPassword
  rw [List.isPrefixOf_iff_prefix]
  refine ⟨natToDecimal PBKDF2_ITERATIONS_DEFAULT ++ [36] ++ btoa salt ++ [36] ++
    btoa (pbkdf2Sha256 (utf8Encode password) salt PBKDF2_ITERATIONS_DEFAULT), ?_⟩
  have hp : strCodes "$pbkdf2$" = [36] ++ strCodes "pbkdf2" ++ [36] := by decide
  rw [hp]
  simp

theorem pbkdf2Sha256_bounds (pw salt : List Nat) (iterations : Nat) :
    ∀ b ∈ pbkdf2Sha256 pw salt iterations, b < 256 := by
  intro b hb
  simp only [pbkdf2Sha256, List.mem_map] at hb
  obtain ⟨j, _, hj⟩ := hb
  omega

theorem pbkdf2Sha256_ne_nil (pw salt : List Nat) (iterations : Nat) :
    pbkdf2Sha256 pw salt iterations ≠ [] := by
  simp [pbkdf2Sha256]

/-- `verify(pw, hash(pw))` is true, for any password and any 16-byte salt. -/
theorem verifyPassword_hashPassword (salt password : List Nat) (hne : salt ≠ [])
    (hb : ∀ b ∈ salt, b < 256) :
    verifyPassword password (hashPassword salt password) = .ok true := by
  unfold verifyPassword
  rw [if_neg (not_not_intro (startsWithPbkdf2_hashPassword salt password))]
  rw [parsePbkdf2_hashPassword salt password hne]
  simp only [atob_btoa salt hb,
    atob_btoa _ (pbkdf2Sha256_bounds (utf8Encode password) salt PBKDF2_ITERATIONS_DEFAULT),
    timingSafeEqual_self]

/-- Any stored hash the regex rejects verifies as false without throwing. -/
theorem verifyPassword_parse_none (password s : List Nat)
    (h : parsePbkdf2 s = none) : verifyPassword password s = .ok false := by
  unfold verifyPassword
  by_cases hsw : startsWithPbkdf2 s = true
  · rw [if_neg (not_not_intro hsw)]
    simp only [h]
  · rw [if_pos hsw]

/-- A structurally well-formed hash whose salt part is not valid base64 makes
`verifyPassword` throw (`fromBase64`/`atob` raises, uncaught). -/
theorem verifyPassword_bad_salt (password s : List Nat) (i : Nat) (sB hB : List Nat)
    (hsw : startsWithPbkdf2 s = true) (hp : parsePbkdf2 s = some (i, sB, hB))
    (ha : atob sB = none) :
    verifyPassword password s = .error .invalidCharacter := by
  unfold verifyPassword
  rw [if_neg (not_not_intro hsw)]
  simp only [hp, ha]

/-- Likewise for an invalid base64 digest part. -/
theorem verifyPassword_bad_digest (password s : List Nat) (i : Nat)
    (sB hB salt : List Nat) (hsw : startsWithPbkdf2 s = true)
    (hp : parsePbkdf2 s = some (i, sB, hB)) (ha : atob sB = some salt)
    (hh : atob hB = none) :
    verifyPassword password s = .error .invalidCharacter := by
  unfold verifyPassword
  rw [if_neg (not_not_intro hsw)]
  simp only [hp, ha, hh]

/-! ## Record-codec lemmas -/

theorem lookupKey_setKey_self :
    ∀ (acc : List (List Nat × WireValue)) (k : List Nat) (v : WireValue),
      lookupKey k (setKey acc k v) = some v := by
  intro acc k v
  induction acc with
  | nil => simp [setKey, lookupKey]
  | cons e rest ih =>
      rcases e with ⟨k', v'⟩
      simp only [setKey]
      by_cases h : k' = k
      · rw [if_pos h]
        simp [lookupKey]
      · rw [if_neg h]
        simp only [lookupKey]
        rw [if_neg h]
        exact ih

theorem lookupKey_setKey_other :
    ∀ (acc : List (List Nat × WireValue)) (k : List Nat) (v : WireValue) (n : List Nat),
      n ≠ k → lookupKey n (setKey acc k v) = lookupKey n acc := by
  intro acc k v n hne
  induction acc with
  | nil =>
      simp only [setKey, lookupKey]
      rw [if_neg (fun h => hne h.symm)]
  | cons e rest ih =>
      rcases e with ⟨k', v'⟩
      simp only [setKey]
      by_cases h : k' = k
      · subst h
        rw [if_pos rfl]
        simp only [lookupKey]
        rw [if_neg (fun h => hne h.symm), if_neg (fun h => hne h.symm)]
      · rw [if_neg h]
        simp only [lookupKey]
        by_cases h2 : k' = n
        · rw [if_pos h2, if_pos h2]
        · rw [if_neg h2, if_neg h2, ih]

theorem keys_setKey :
    ∀ (acc : List (List Nat × WireValue)) (k : List Nat) (v : WireValue) (n : List Nat),
      n ∈ (setKey acc k v).map Prod.fst ↔ n ∈ acc.map Prod.fst ∨ n = k := by
  intro acc k v n
  induction acc with
  | nil => simp [setKey, eq_comm]
  | cons e rest ih =>
      rcases e with ⟨k', v'⟩
      simp only [setKey]
      by_cases h : k' = k
      · subst h
        rw [if_pos rfl]
        simp only [List.map_cons, List.mem_cons]
        tauto
      · rw [if_neg h]
        simp only [List.map_cons, List.mem_cons, ih]
        tauto

theorem nodup_setKey :
    ∀ (acc : List (List Nat × WireValue)) (k : List Nat) (v : WireValue),
      (acc.map Prod.fst).Nodup → ((setKey acc k v).map Prod.fst).Nodup := by
  intro acc k v h
  induction acc with
  | nil => simp [setKey]
  | cons e rest ih =>
      rcases e with ⟨k', v'⟩
      simp only [List.map_cons, List.nodup_cons] at h
      simp only [setKey]
      by_cases hk : k' = k
      · subst hk
        rw [if_pos rfl]
        simp only [List.map_cons, List.nodup_cons]
        exact h
      · rw [if_neg hk]
        simp only [List.map_cons, List.nodup_cons]
        refine ⟨?_, ih h.2⟩
        intro hmem
        rcases (keys_setKey rest k v k').mp hmem with hmem | hmem
        · exact h.1 hmem
        · exact hk hmem

theorem decryptObjectGo_lookup_skip :
    ∀ (entries : List (List Nat × WireValue)) (key : List Nat)
      (acc : List (List Nat × WireValue)) (n : List Nat),
      n ∉ entries.filterMap (fun e => decOutKey e.1) →
      lookupKey n (decryptObjectGo key entries acc) = lookupKey n acc := by
  intro entries key
  induction entries with
  | nil => intro acc n _; rfl
  | cons e rest ih =>
      rcases e with ⟨k0, v0⟩
      intro acc n hn
      simp only [List.filterMap_cons] at hn
      by_cases he : endsWithEncrypted k0 = true
      · have hout : decOutKey k0 = some (replaceFirst encSuffix k0) := by
          simp [decOutKey, he]
        rw [hout] at hn
        simp only [List.mem_cons] at hn
        push_neg at hn
        show lookupKey n (decryptObjectGo key rest
          (if endsWithEncrypted k0 then
            setKey acc (replaceFirst encSuffix k0) (decryptField key v0)
           else if k0 ∈ passthroughKeys then setKey acc k0 v0 else acc)) = lookupKey n acc
        rw [if_pos he, ih _ _ hn.2, lookupKey_setKey_other _ _ _ _ hn.1]
      · by_cases hp : k0 ∈ passthroughKeys
        · have hout : decOutKey k0 = some k0 := by
            simp [decOutKey, he, hp]
          rw [hout] at hn
          simp only [List.mem_cons] at hn
          push_neg at hn
          show lookupKey n (decryptObjectGo key rest
            (if endsWithEncrypted k0 then
              setKey acc (replaceFirst encSuffix k0) (decryptField key v0)
             else if k0 ∈ passthroughKeys then setKey acc k0 v0 else acc)) = lookupKey n acc
          rw [if_neg he, if_pos hp, ih _ _ hn.2, lookupKey_setKey_other _ _ _ _ hn.1]
        · have hout : decOutKey k0 = none := by
            simp [decOutKey, he, hp]
          rw [hout] at hn
          show lookupKey n (decryptObjectGo key rest
            (if endsWithEncrypted k0 then
              setKey acc (replaceFirst encSuffix k0) (decryptField key v0)
             else if k0 ∈ passthroughKeys then setKey acc k0 v0 else acc)) = lookupKey n acc
          rw [if_neg he, if_neg hp, ih _ _ hn]

theorem decryptObjectGo_lookup_enc :
    ∀ (entries : List (List Nat × WireValue)) (key : List Nat)
      (acc : List (List Nat × WireValue)) (k : List Nat) (v : WireValue),
      (entries.filterMap (fun e => decOutKey e.1)).Nodup →
      (k, v) ∈ entries → endsWithEncrypted k = true →
      lookupKey (replaceFirst encSuffix k) (decryptObjectGo key entries acc) =
        some (decryptField key v) := by
  intro entries key
  induction entries with
  | nil => intro acc k v _ hmem; simp at hmem
  | cons e rest ih =>
      rcases e with ⟨k0, v0⟩
      intro acc k v hnd hmem he
      rcases List.mem_cons.mp hmem with heq | hmem'
      · have hk : k0 = k := congrArg Prod.fst heq.symm
        have hv : v0 = v := congrArg Prod.snd heq.symm
        subst hk
        subst hv
        have hout : decOutKey k0 = some (replaceFirst encSuffix k0) := by
          simp [decOutKey, he]
        simp only [List.filterMap_cons, hout, List.nodup_cons] at hnd
        show lookupKey (replaceFirst encSuffix k0) (decryptObjectGo key rest
          (if endsWithEncrypted k0 then
            setKey acc (replaceFirst encSuffix k0) (decryptField key v0)
           else if k0 ∈ passthroughKeys then setKey acc k0 v0 else acc)) = _
        rw [if_pos he, decryptObjectGo_lookup_skip rest key _ _ hnd.1,
          lookupKey_setKey_self]
      · have hnd' : (rest.filterMap (fun e => decOutKey e.1)).Nodup := by
          simp only [List.filterMap_cons] at hnd
          rcases hout : decOutKey k0 with _ | n0
          · rw [hout] at hnd; exact hnd
          · rw [hout] at hnd
            exact (List.nodup_cons.mp hnd).2
        show lookupKey (replaceFirst encSuffix k) (decryptObjectGo key rest
          (if endsWithEncrypted k0 then
            setKey acc (replaceFirst encSuffix k0) (decryptField key v0)
           else if k0 ∈ passthroughKeys then setKey acc k0 v0 else acc)) = _
        exact ih _ k v hnd' hmem' he

theorem decryptObjectGo_lookup_pass :
    ∀ (entries : List (List Nat × WireValue)) (key : List Nat)
      (acc : List (List Nat × WireValue)) (k : List Nat) (v : WireValue),
      (entries.filterMap (fun e => decOutKey e.1)).Nodup →
      (k, v) ∈ entries → endsWithEncrypted k = false → k ∈ passthroughKeys →
      lookupKey k (decryptObjectGo key entries acc) = some v := by
  intro entries key
  induction entries with
  | nil => intro acc k v _ hmem; simp at hmem
  | cons e rest ih =>
      rcases e with ⟨k0, v0⟩
      intro acc k v hnd hmem he hp
      rcases List.mem_cons.mp hmem with heq | hmem'
      · have hk : k0 = k := congrArg Prod.fst heq.symm
        have hv : v0 = v := congrArg Prod.snd heq.symm
        subst hk
        subst hv
        have hout : decOutKey k0 = some k0 := by
          simp [decOutKey, he, hp]
        simp only [List.filterMap_cons, hout, List.nodup_cons] at hnd
        show lookupKey k0 (decryptObjectGo key rest
          (if endsWithEncrypted k0 then
            setKey acc (replaceFirst encSuffix k0) (decryptField key v0)
           else if k0 ∈ passthroughKeys then setKey acc k0 v0 else acc)) = _
        rw [if_neg (by simp [he]), if_pos hp,
          decryptObjectGo_lookup_skip rest key _ _ hnd.1, lookupKey_setKey_self]
      · have hnd' : (rest.filterMap (fun e => decOutKey e.1)).Nodup := by
          simp only [List.filterMap_cons] at hnd
          rcases hout : decOutKey k0 with _ | n0
          · rw [hout] at hnd; exact hnd
          · rw [hout] at hnd
            exact (List.nodup_cons.mp hnd).2
        show lookupKey k (decryptObjectGo key rest
          (if endsWithEncrypted k0 then
            setKey acc (replaceFirst encSuffix k0) (decryptField key v0)
           else if k0 ∈ passthroughKeys then setKey acc k0 v0 else acc)) = _
        exact ih _ k v hnd' hmem' he hp

theorem keys_decryptObjectGo :
    ∀ (entries : List (List Nat × WireValue)) (key : List Nat)
      (acc : List (List Nat × WireValue)) (n : List Nat),
      n ∈ (decryptObjectGo key entries acc).map Prod.fst ↔
        n ∈ acc.map Prod.fst ∨ ∃ e ∈ entries, decOutKey e.1 = some n := by
  intro entries key
  induction entries with
  | nil => intro acc n; simp [decryptObjectGo]
  | cons e rest ih =>
      rcases e with ⟨k0, v0⟩
      intro acc n
      show n ∈ (decryptObjectGo key rest
        (if endsWithEncrypted k0 then
          setKey acc (replaceFirst encSuffix k0) (decryptField key v0)
         else if k0 ∈ passthroughKeys then setKey acc k0 v0 else acc)).map Prod.fst ↔ _
      by_cases he : endsWithEncrypted k0 = true
      · rw [if_pos he, ih]
        simp only [keys_setKey, List.mem_cons]
        constructor
        · rintro ((h | h) | h)
          · exact Or.inl h
          · exact Or.inr ⟨(k0, v0), by simp, by simp [decOutKey, he, h]⟩
          · obtain ⟨e, he1, he2⟩ := h
            exact Or.inr ⟨e, by simp [he1], he2⟩
        · rintro (h | ⟨e, he1, he2⟩)
          · exact Or.inl (Or.inl h)
          · rcases he1 with h1 | h1
            · subst h1
              simp only [decOutKey, he, if_pos] at he2
              exact Or.inl (Or.inr (Option.some.inj he2).symm)
            · exact Or.inr ⟨e, h1, he2⟩
      · by_cases hp : k0 ∈ passthroughKeys
        · rw [if_neg he, if_pos hp, ih]
          simp only [keys_setKey, List.mem_cons]
          constructor
          · rintro ((h | h) | h)
            · exact Or.inl h
            · exact Or.inr ⟨(k0, v0), by simp, by simp [decOutKey, he, hp, h]⟩
            · obtain ⟨e, he1, he2⟩ := h
              exact Or.inr ⟨e, by simp [he1], he2⟩
          · rintro (h | ⟨e, he1, he2⟩)
            · exact Or.inl (Or.inl h)
            · rcases he1 with h1 | h1
              · subst h1
                simp only [decOutKey, he, hp] at he2
                simp only [if_neg, if_pos] at he2
                exact Or.inl (Or.inr (Option.some.inj he2).symm)
              · exact Or.inr ⟨e, h1, he2⟩
        · rw [if_neg he, if_neg hp, ih]
          constructor
          · rintro (h | ⟨e, he1, he2⟩)
            · exact Or.inl h
            · exact Or.inr ⟨e, by simp [he1], he2⟩
          · rintro (h | ⟨e, he1, he2⟩)
            · exact Or.inl h
            · rcases List.mem_cons.mp he1 with h1 | h1
              · subst h1
                simp [decOutKey, he, hp] at he2
              · exact Or.inr ⟨e, h1, he2⟩


theorem nodup_keys_decryptObjectGo :
    ∀ (entries : List (List Nat × WireValue)) (key : List Nat)
      (acc : List (List Nat × WireValue)),
      (acc.map Prod.fst).Nodup →
      ((decryptObjectGo key entries acc).map Prod.fst).Nodup := by
  intro entries key
  induction entries with
  | nil => intro acc h; exact h
  | cons e rest ih =>
      rcases e with ⟨k0, v0⟩
      intro acc h
      show ((decryptObjectGo key rest
        (if endsWithEncrypted k0 then
          setKey acc (replaceFirst encSuffix k0) (decryptField key v0)
         else if k0 ∈ passthroughKeys then setKey acc k0 v0 else acc)).map Prod.fst).Nodup
      split_ifs with h1 h2
      · exact ih _ (nodup_setKey _ _ _ h)
      · exact ih _ (nodup_setKey _ _ _ h)
      · exact ih _ h

theorem encryptObjectGo_calls :
    ∀ (obj : List (List Nat × PlainValue)) (key : List Nat) (nonces : Nat → List Nat)
      (calls : Nat),
      (encryptObjectGo key nonces obj calls).2 = calls +
        obj.countP (fun e => match e.2 with
          | PlainValue.pstr s => !(s == [])
          | _ => false) := by
  intro obj key nonces
  induction obj with
  | nil => intro calls; simp [encryptObjectGo]
  | cons e rest ih =>
      rcases e with ⟨k0, v0⟩
      intro calls
      rcases v0 with s | _ | _
      · by_cases hs : s = []
        · subst hs
          simp only [encryptObjectGo, if_pos rfl, ih, List.countP_cons]
          simp
        · simp only [encryptObjectGo, if_neg hs, ih, List.countP_cons]
          have hb : (s == []) = false := by simpa using hs
          simp only [hb, Bool.not_false, eq_self_iff_true, if_true]
          omega
      · simp only [encryptObjectGo, ih, List.countP_cons]
        simp
      · simp only [encryptObjectGo, ih, List.countP_cons]
        simp

theorem encryptObjectGo_null_mem :
    ∀ (obj : List (List Nat × PlainValue)) (key : List Nat) (nonces : Nat → List Nat)
      (calls : Nat) (k : List Nat),
      ((k, PlainValue.pnull) ∈ obj ∨ (k, PlainValue.pstr []) ∈ obj) →
      (k ++ encSuffix, WireValue.wnull) ∈ (encryptObjectGo key nonces obj calls).1 := by
  intro obj key nonces
  induction obj with
  | nil => intro calls k h; simp at h
  | cons e rest ih =>
      rcases e with ⟨k0, v0⟩
      intro calls k h
      have hh : (k0, v0) = (k, PlainValue.pnull) ∨ (k0, v0) = (k, PlainValue.pstr []) ∨
          ((k, PlainValue.pnull) ∈ rest ∨ (k, PlainValue.pstr []) ∈ rest) := by
        rcases h with h | h
        · rcases List.mem_cons.mp h with h | h
          · exact Or.inl h.symm
          · exact Or.inr (Or.inr (Or.inl h))
        · rcases List.mem_cons.mp h with h | h
          · exact Or.inr (Or.inl h.symm)
          · exact Or.inr (Or.inr (Or.inr h))
      clear h
      rcases hh with h | h | h
      · injection h with hk hv
        subst hk
        subst hv
        simp [encryptObjectGo]
      · injection h with hk hv
        subst hk
        subst hv
        simp [encryptObjectGo]
      · rcases v0 with s | _ | _
        · by_cases hs : s = []
          · subst hs
            simp only [encryptObjectGo, if_pos rfl]
            exact List.mem_cons_of_mem _ (ih calls k h)
          · simp only [encryptObjectGo, if_neg hs]
            exact List.mem_cons_of_mem _ (ih (calls + 1) k h)
        · simp only [encryptObjectGo]
          exact List.mem_cons_of_mem _ (ih calls k h)
        · simp only [encryptObjectGo]
          exact ih calls k h

/-! ## Vault-store lemmas -/

theorem setMasterKey_storage_nonextractable (w : VaultWorld) (k : CryptoKey)
    (W T : Nat) (hx : k.extractable = false) :
    (setMasterKey w k W T).storage = w.storage := by
  simp [setMasterKey, storeVaultSession, subtleExportKey, hx]

theorem checkUnlockStatus_before (w : VaultWorld) (k : CryptoKey) (W T t : Nat)
    (h : t < T + W) : (checkUnlockStatus (setMasterKey w k W T) t).1 = true := by
  unfold checkUnlockStatus unlockActive setMasterKey
  simp [h]

theorem checkUnlockStatus_after (w : VaultWorld) (k : CryptoKey) (W T t : Nat)
    (hw : w.storage = none) (h : T + W < t) :
    (checkUnlockStatus (setMasterKey w k W T) t).1 = false ∧
    (checkUnlockStatus (setMasterKey w k W T) t).2.state.masterKey = some k ∧
    (checkUnlockStatus (setMasterKey w k W T) t).2.state.isUnlocked = true := by
  have h2 : ¬ t < T + W := by omega
  by_cases hx : k.extractable = true
  · unfold checkUnlockStatus unlockActive setMasterKey storeVaultSession
      retrieveVaultSession subtleExportKey
    simp [hx, h, h2]
  · have hx' : k.extractable = false := by simpa using hx
    unfold checkUnlockStatus unlockActive setMasterKey storeVaultSession
      retrieveVaultSession subtleExportKey
    simp [hx', hw, h2]

/-! ## resetPassword lemmas -/

theorem resetValidate_proceed (db : Db) (tok pw : List Nat) (now : Nat)
    (r : ResetTokenRecord)
    (hl1 : ¬ tok.length < 10) (hl2 : ¬ pw.length < 12)
    (hf : findToken db (hashTokenModel tok) = some r)
    (hu : r.used = false) (he : ¬ r.expiresAt < now) :
    resetValidate db tok pw now = .proceed r.userId := by
  unfold resetValidate
  rw [if_neg (not_or.mpr ⟨hl1, hl2⟩), hf]
  simp [hu, he]

theorem resetValidate_used (db : Db) (tok pw : List Nat) (now : Nat)
    (r : ResetTokenRecord)
    (hl1 : ¬ tok.length < 10) (hl2 : ¬ pw.length < 12)
    (hf : findToken db (hashTokenModel tok) = some r) (hu : r.used = true) :
    resetValidate db tok pw now = .reject .errTokenUsed := by
  unfold resetValidate
  rw [if_neg (not_or.mpr ⟨hl1, hl2⟩), hf]
  simp [hu]

theorem find_applyResetBatch (l : List ResetTokenRecord) (th : List Nat)
    (r : ResetTokenRecord)
    (hf : l.find? (fun x => x.tokenHash == th) = some r) :
    (l.map (fun x => if x.tokenHash = th then { x with used := true } else x)).find?
      (fun x => x.tokenHash == th) = some { r with used := true } := by
  induction l with
  | nil => simp at hf
  | cons a t ih =>
      by_cases ha : a.tokenHash = th
      · have hfa : (a.tokenHash == th) = true := by simpa using ha
        simp only [List.find?_cons, hfa] at hf
        have har : a = r := Option.some.inj hf
        subst har
        simp only [List.map_cons, if_pos ha]
        simp [List.find?_cons, ha]
      · have hfa : (a.tokenHash == th) = false := by simpa using ha
        simp only [List.find?_cons, hfa] at hf
        simp only [List.map_cons, if_neg ha, List.find?_cons, hfa]
        exact ih hf

theorem findToken_applyResetBatch (db : Db) (th : List Nat) (uid : Nat)
    (newHash : List Nat) (r : ResetTokenRecord)
    (hf : findToken db th = some r) :
    findToken (applyResetBatch db th uid newHash) th = some { r with used := true } :=
  find_applyResetBatch db.resetTokens th r hf

theorem applyResetBatch_sessions (db : Db) (th : List Nat) (uid : Nat)
    (newHash : List Nat) :
    ∀ s ∈ (applyResetBatch db th uid newHash).sessions, s.2 ≠ uid := by
  intro s hs
  simp only [applyResetBatch, List.mem_filter] at hs
  simpa using hs.2

theorem applyResetBatch_token_used (db : Db) (th : List Nat) (uid : Nat)
    (newHash : List Nat) :
    ∀ x ∈ (applyResetBatch db th uid newHash).resetTokens,
      x.tokenHash = th → x.used = true := by
  intro x hx hth
  simp only [applyResetBatch, List.mem_map] at hx
  obtain ⟨y, _, hy⟩ := hx
  by_cases h : y.tokenHash = th
  · rw [if_pos h] at hy
    rw [← hy]
  · rw [if_neg h] at hy
    rw [← hy] at hth
    exact absurd hth h

theorem applyResetBatch_users (db : Db) (th : List Nat) (uid : Nat)
    (newHash : List Nat) :
    (applyResetBatch db th uid newHash).users =
      db.users.map fun u => if u.1 = uid then (u.1, newHash) else u := rfl

theorem resetPassword_first (db : Db) (tok pw salt : List Nat) (now : Nat)
    (r : ResetTokenRecord)
    (hl1 : ¬ tok.length < 10) (hl2 : ¬ pw.length < 12)
    (hf : findToken db (hashTokenModel tok) = some r)
    (hu : r.used = false) (he : ¬ r.expiresAt < now) :
    resetPassword db tok pw salt now =
      (.success, applyResetBatch db (hashTokenModel tok) r.userId
        (hashPassword salt pw)) := by
  unfold resetPassword
  rw [resetValidate_proceed db tok pw now r hl1 hl2 hf hu he]
  rfl

theorem resetPassword_second (db : Db) (tok pw salt : List Nat) (now : Nat)
    (r : ResetTokenRecord) (pw2 salt2 : List Nat) (now2 : Nat)
    (hl1 : ¬ tok.length < 10) (hl2 : ¬ pw.length < 12) (hl3 : ¬ pw2.length < 12)
    (hf : findToken db (hashTokenModel tok) = some r)
    (hu : r.used = false) (he : ¬ r.expiresAt < now) :
    (resetPassword (resetPassword db tok pw salt now).2 tok pw2 salt2 now2).1 =
      .errTokenUsed := by
  rw [resetPassword_first db tok pw salt now r hl1 hl2 hf hu he]
  unfold resetPassword
  rw [resetValidate_used _ tok pw2 now2 { r with used := true } hl1 hl3
    (findToken_applyResetBatch db (hashTokenModel tok) r.userId
      (hashPassword salt pw) r hf) rfl]
  rfl

/-! ## Claim theorems -/

/-- C1: for every derived AES-GCM key, every fresh 12-byte nonce and every
plaintext string, decrypting the wire string produced by encrypting it under
the same key returns exactly the plaintext — both for the worker-side
`encrypt`/`decrypt` pair and for the client-side `encryptData`/`decryptData`
pair (the wire string is base64 of the nonce concatenated with
ciphertext+tag). -/
theorem claim_C1_roundtrip (key nonce pt : List Nat) (h12 : nonce.length = 12)
    (hn : ∀ b ∈ nonce, b < 256) (hs : ∀ c ∈ pt, ValidScalar c) :
    decrypt key (encrypt key nonce pt) = .ok pt ∧
    decryptData (encryptData pt key nonce) key = .ok pt := by
  refine ⟨decrypt_encrypt_core key nonce pt h12 hn hs, ?_⟩
  rw [decryptData_eq_decrypt, encryptData_eq_encrypt]
  exact decrypt_encrypt_core key nonce pt h12 hn hs

theorem claim_C1_roundtrip_witness :
    ([0, 1, 2, 3, 4, 5, 6, 7, 8, 9, 10, 11] : List Nat).length = 12 ∧
    (∀ b ∈ ([0, 1, 2, 3, 4, 5, 6, 7, 8, 9, 10, 11] : List Nat), b < 256) ∧
    (∀ c ∈ strCodes "s3cret", ValidScalar c) ∧
    (decrypt [7, 7] (encrypt [7, 7] [0, 1, 2, 3, 4, 5, 6, 7, 8, 9, 10, 11]
        (strCodes "s3cret")) = .ok (strCodes "s3cret") ∧
      decryptData (encryptData (strCodes "s3cret") [7, 7]
        [0, 1, 2, 3, 4, 5, 6, 7, 8, 9, 10, 11]) [7, 7] = .ok (strCodes "s3cret")) :=
  ⟨by decide, by decide, by decide,
    claim_C1_roundtrip [7, 7] [0, 1, 2, 3, 4, 5, 6, 7, 8, 9, 10, 11]
      (strCodes "s3cret") (by decide) (by decide) (by decide)⟩

/-- C2 counterexample: unlocking at T = 0 with window 900000 ms (with a
non-extractable key, as every key the program derives is) and calling
`checkUnlockStatus` at T+W+1 returns false (reports locked) but neither
transitions the store to locked nor discards the in-memory key: `masterKey`
still holds the key and `isUnlocked` is still true, so the key remains
recoverable — refuting "transitions the session state to Locked, and discards
the in-memory derived key". -/
theorem claim_C2_counterexample :
    (checkUnlockStatus
      (setMasterKey ⟨⟨none, none, false, none⟩, none⟩ ⟨[1], false⟩ 900000 0)
      900001).1 = false ∧
    (checkUnlockStatus
      (setMasterKey ⟨⟨none, none, false, none⟩, none⟩ ⟨[1], false⟩ 900000 0)
      900001).2.state.masterKey = some ⟨[1], false⟩ ∧
    (checkUnlockStatus
      (setMasterKey ⟨⟨none, none, false, none⟩, none⟩ ⟨[1], false⟩ 900000 0)
      900001).2.state.isUnlocked = true := by
  decide

/-- C2 (amended): after `setMasterKey` at time T with window W,
`checkUnlockStatus` at any t < T+W returns true (reports Unlocked) and at any
t > T+W returns false (reports Locked); but past expiry the in-memory
`masterKey` and the `isUnlocked` flag are left set, so the key is not
discarded and remains recoverable.  (There is also no persisted copy in play:
the hypothesis that the session slot is empty is the only reachable state,
since the derived key is non-extractable and `storeVaultSession` never
succeeds in writing it.) -/
theorem claim_C2_amended (w : VaultWorld) (k : CryptoKey) (W T t : Nat)
    (hw : w.storage = none) :
    (t < T + W → (checkUnlockStatus (setMasterKey w k W T) t).1 = true) ∧
    (T + W < t →
      (checkUnlockStatus (setMasterKey w k W T) t).1 = false ∧
      (checkUnlockStatus (setMasterKey w k W T) t).2.state.masterKey = some k ∧
      (checkUnlockStatus (setMasterKey w k W T) t).2.state.isUnlocked = true) :=
  ⟨fun h => checkUnlockStatus_before w k W T t h,
   fun h => checkUnlockStatus_after w k W T t hw h⟩

theorem claim_C2_amended_witness :
    (⟨⟨none, none, false, none⟩, none⟩ : VaultWorld).storage = none ∧
    ((100 : Nat) < 0 + 900000 ∧
      (checkUnlockStatus
        (setMasterKey ⟨⟨none, none, false, none⟩, none⟩ ⟨[2], false⟩ 900000 0)
        100).1 = true) ∧
    ((0 : Nat) + 900000 < 900001 ∧
      (checkUnlockStatus
        (setMasterKey ⟨⟨none, none, false, none⟩, none⟩ ⟨[2], false⟩ 900000 0)
        900001).1 = false) :=
  ⟨by decide,
   ⟨by decide,
    (claim_C2_amended ⟨⟨none, none, false, none⟩, none⟩ ⟨[2], false⟩ 900000 0 100
      (by decide)).1 (by decide)⟩,
   ⟨by decide,
    ((claim_C2_amended ⟨⟨none, none, false, none⟩, none⟩ ⟨[2], false⟩ 900000 0 900001
      (by decide)).2 (by decide)).1⟩⟩

/-- C3 (code_bug): the vault persist/restore feature is dead code.  The claim
says unlocking persists a wrapped copy of the derived key plus expiry to
session-scoped storage so a reload within the window restores Unlocked; the
spec (§4.6) describes the same.  But `deriveKey` creates the key with
`extractable: false`, so `crypto.subtle.exportKey('raw')` inside
`storeVaultSession` always throws and the surrounding try/catch swallows the
error: nothing is ever written to sessionStorage.  Concretely: unlock at T = 0
with window 900000 using the key derived from password "pw" and salt "42",
then reload (in-memory state lost, storage carried over) and call
`checkUnlockStatus` at t = 500, well inside the window.  The storage slot is
still `none`, the status call returns false, and no key is restored —
divergence from the claimed restore-to-Unlocked behaviour. -/
theorem claim_C3_code_bug :
    (deriveKey (strCodes "pw") (strCodes "42")).extractable = false ∧
    (setMasterKey ⟨⟨none, none, false, none⟩, none⟩
      (deriveKey (strCodes "pw") (strCodes "42")) 900000 0).storage = none ∧
    (checkUnlockStatus
      ⟨⟨none, none, false, none⟩,
        (setMasterKey ⟨⟨none, none, false, none⟩, none⟩
          (deriveKey (strCodes "pw") (strCodes "42")) 900000 0).storage⟩
      500).1 = false ∧
    (checkUnlockStatus
      ⟨⟨none, none, false, none⟩,
        (setMasterKey ⟨⟨none, none, false, none⟩, none⟩
          (deriveKey (strCodes "pw") (strCodes "42")) 900000 0).storage⟩
      500).2.state.masterKey = none ∧
    (checkUnlockStatus
      ⟨⟨none, none, false, none⟩,
        (setMasterKey ⟨⟨none, none, false, none⟩, none⟩
          (deriveKey (strCodes "pw") (strCodes "42")) 900000 0).storage⟩
      500).2.state.isUnlocked = false := by
  refine ⟨rfl, ?_, ?_, ?_, ?_⟩ <;>
    simp [setMasterKey, storeVaultSession, subtleExportKey, deriveKey,
      checkUnlockStatus, unlockActive, retrieveVaultSession]

/-- C9: `verifyPassword(pw, hashPassword(pw))` is true for every password and
every (nonempty byte-valued) random salt; the hash string self-describes
algorithm tag, iteration count, salt and digest, so the same string read back
unchanged from storage verifies identically (the statement depends only on
the string value). -/
theorem claim_C9_verify_hash (salt password : List Nat) (hne : salt ≠ [])
    (hb : ∀ b ∈ salt, b < 256) :
    verifyPassword password (hashPassword salt password) = .ok true :=
  verifyPassword_hashPassword salt password hne hb

theorem claim_C9_verify_hash_witness :
    ([3, 1, 4, 1, 5, 9, 2, 6, 5, 3, 5, 8, 9, 7, 9, 3] : List Nat) ≠ [] ∧
    (∀ b ∈ ([3, 1, 4, 1, 5, 9, 2, 6, 5, 3, 5, 8, 9, 7, 9, 3] : List Nat), b < 256) ∧
    verifyPassword (strCodes "CorrectHorse!23")
      (hashPassword [3, 1, 4, 1, 5, 9, 2, 6, 5, 3, 5, 8, 9, 7, 9, 3]
        (strCodes "CorrectHorse!23")) = .ok true :=
  ⟨by decide, by decide,
    claim_C9_verify_hash [3, 1, 4, 1, 5, 9, 2, 6, 5, 3, 5, 8, 9, 7, 9, 3]
      (strCodes "CorrectHorse!23") (by decide) (by decide)⟩

/-- C4 counterexample: flipping bit 297 of the wire string produced by
encrypting the empty plaintext changes the string (the final base64 character
`Q` becomes `S`), yet `decrypt` does not fail — it succeeds and returns the
original plaintext, because the flip is confined to the unused trailing bits
of the final base64 character and forgiving-base64 decoding discards those
bits.  This refutes "flipping any single bit of the wire-encoded string causes
decrypt to fail". -/
theorem claim_C4_counterexample :
    flipBit 297 (encrypt (List.range 32) (List.range 12) []) ≠
      encrypt (List.range 32) (List.range 12) [] ∧
    decrypt (List.range 32) (flipBit 297 (encrypt (List.range 32) (List.range 12) []))
      = .ok [] := by
  constructor
  · decide
  · decide

/-- C4 (amended): (i) `decrypt` returns a plaintext only when the
authentication tag recomputed over the decoded nonce and ciphertext equals the
stored tag, so a tampered wire string is never silently decoded without tag
validation; (ii) a single-bit flip that leaves the decoded bytes unchanged
(one confined to the unused trailing bits of the final base64 character) makes
`decrypt` succeed and return exactly the original plaintext — so not every
bit flip causes a failure; (iii) any corruption of the stored tag bytes that
leaves nonce and ciphertext intact makes `decrypt` fail with the
`IntegrityError`. -/
theorem claim_C4_amended :
    (∀ key w q : List Nat, decrypt key w = .ok q → ∃ combined,
      atob w = some combined ∧
      16 ≤ (combined.drop 12).length ∧
      gcmTag key (combined.take 12)
        ((combined.drop 12).take ((combined.drop 12).length - 16)) =
        (combined.drop 12).drop ((combined.drop 12).length - 16)) ∧
    (∀ key nonce pt w' : List Nat, nonce.length = 12 → (∀ b ∈ nonce, b < 256) →
      (∀ c ∈ pt, ValidScalar c) → atob w' = atob (encrypt key nonce pt) →
      decrypt key w' = .ok pt) ∧
    (∀ key nonce pt tag' : List Nat, nonce.length = 12 → (∀ b ∈ nonce, b < 256) →
      (∀ c ∈ pt, ValidScalar c) → tag'.length = 16 → (∀ b ∈ tag', b < 256) →
      tag' ≠ gcmTag key nonce (xorKeystream key nonce 0 (utf8Encode pt)) →
      decrypt key (btoa (nonce ++ (xorKeystream key nonce 0 (utf8Encode pt) ++ tag')))
        = .error .integrityError) := by
  refine ⟨?_, ?_, ?_⟩
  · intro key w q h
    obtain ⟨c, h1, h2, h3, _⟩ := decrypt_ok_tag_valid key w q h
    exact ⟨c, h1, h2, h3⟩
  · intro key nonce pt w' h12 hn hs heq
    have hd : decrypt key w' = decrypt key (encrypt key nonce pt) := by
      unfold decrypt
      rw [heq]
    rw [hd]
    exact decrypt_encrypt_core key nonce pt h12 hn hs
  · intro key nonce pt tag' h12 hn hs htl htb hne
    exact decrypt_altered_tag key nonce pt tag' h12 hn hs htl htb hne

theorem claim_C4_amended_witness :
    (decrypt [3] (encrypt [3] [0, 1, 2, 3, 4, 5, 6, 7, 8, 9, 10, 11] [65]) =
        .ok [65] ∧
      ∃ combined,
        atob (encrypt [3] [0, 1, 2, 3, 4, 5, 6, 7, 8, 9, 10, 11] [65]) = some combined ∧
        16 ≤ (combined.drop 12).length ∧
        gcmTag [3] (combined.take 12)
          ((combined.drop 12).take ((combined.drop 12).length - 16)) =
          (combined.drop 12).drop ((combined.drop 12).length - 16)) ∧
    (atob (flipBit 297 (encrypt (List.range 32) (List.range 12) [])) =
        atob (encrypt (List.range 32) (List.range 12) []) ∧
      decrypt (List.range 32) (flipBit 297 (encrypt (List.range 32) (List.range 12) []))
        = .ok []) ∧
    ([0, 0, 0, 0, 0, 0, 0, 0, 0, 0, 0, 0, 0, 0, 0, 0] : List Nat) ≠
        gcmTag [3] [0, 1, 2, 3, 4, 5, 6, 7, 8, 9, 10, 11]
          (xorKeystream [3] [0, 1, 2, 3, 4, 5, 6, 7, 8, 9, 10, 11] 0 (utf8Encode [65])) ∧
      decrypt [3] (btoa ([0, 1, 2, 3, 4, 5, 6, 7, 8, 9, 10, 11] ++
        (xorKeystream [3] [0, 1, 2, 3, 4, 5, 6, 7, 8, 9, 10, 11] 0 (utf8Encode [65]) ++
          [0, 0, 0, 0, 0, 0, 0, 0, 0, 0, 0, 0, 0, 0, 0, 0]))) = .error .integrityError := by
  refine ⟨⟨?_, ?_⟩, ⟨?_, ?_⟩, ?_, ?_⟩
  · decide
  · exact claim_C4_amended.1 [3] _ [65] (by decide)
  · decide
  · exact claim_C4_amended.2.1 (List.range 32) (List.range 12) []
      (flipBit 297 (encrypt (List.range 32) (List.range 12) []))
      (by decide) (by decide) (by decide) (by decide)
  · decide
  · exact claim_C4_amended.2.2 [3] [0, 1, 2, 3, 4, 5, 6, 7, 8, 9, 10, 11] [65]
      [0, 0, 0, 0, 0, 0, 0, 0, 0, 0, 0, 0, 0, 0, 0, 0]
      (by decide) (by decide) (by decide) (by decide) (by decide) (by decide)

/-- C5: `decryptObject` decrypts each `*_encrypted` field independently: a
non-empty wire field whose decryption succeeds yields its plaintext under the
bare name, and one whose decryption throws is reported with the sentinel
`'[DECRYPTION FAILED]'` — each field's outcome depends only on its own value,
so no per-field failure aborts decoding of the record (`decryptObject` is a
total function and every other field is characterised the same way).  The
hypothesis asks that the record's derived output names are distinct, which is
what makes "the" entry for a field well-defined. -/
theorem claim_C5_field_isolation (encObj : List (List Nat × WireValue)) (key : List Nat)
    (hnd : (encObj.filterMap (fun e => decOutKey e.1)).Nodup) :
    (∀ k s pt, (k, WireValue.wstr s) ∈ encObj → endsWithEncrypted k = true →
      0 < s.length → decryptData s key = .ok pt →
      lookupKey (replaceFirst encSuffix k) (decryptObject encObj key) =
        some (WireValue.wstr pt)) ∧
    (∀ k s e, (k, WireValue.wstr s) ∈ encObj → endsWithEncrypted k = true →
      0 < s.length → decryptData s key = .error e →
      lookupKey (replaceFirst encSuffix k) (decryptObject encObj key) =
        some (WireValue.wstr sentinel)) := by
  constructor
  · intro k s pt hmem hend hlen hdec
    unfold decryptObject
    rw [decryptObjectGo_lookup_enc encObj key [] k (WireValue.wstr s) hnd hmem hend]
    have hfield : decryptField key (WireValue.wstr s) = WireValue.wstr pt := by
      show (if 0 < s.length then
        (match decryptData s key with
          | Except.ok pt => WireValue.wstr pt
          | Except.error _ => WireValue.wstr sentinel)
        else WireValue.wnull) = WireValue.wstr pt
      rw [if_pos hlen, hdec]
    rw [hfield]
  · intro k s e hmem hend hlen hdec
    unfold decryptObject
    rw [decryptObjectGo_lookup_enc encObj key [] k (WireValue.wstr s) hnd hmem hend]
    have hfield : decryptField key (WireValue.wstr s) = WireValue.wstr sentinel := by
      show (if 0 < s.length then
        (match decryptData s key with
          | Except.ok pt => WireValue.wstr pt
          | Except.error _ => WireValue.wstr sentinel)
        else WireValue.wnull) = WireValue.wstr sentinel
      rw [if_pos hlen, hdec]
    rw [hfield]

theorem claim_C5_field_isolation_witness :
    ([(strCodes "a_encrypted", WireValue.wstr (strCodes "!!")),
      (strCodes "b_encrypted",
       WireValue.wstr (encryptData (strCodes "ok") [7]
         [0, 1, 2, 3, 4, 5, 6, 7, 8, 9, 10, 11]))].filterMap
      (fun e => decOutKey e.1)).Nodup ∧
    decryptData (strCodes "!!") [7] = .error .invalidCharacter ∧
    decryptData (encryptData (strCodes "ok") [7] [0, 1, 2, 3, 4, 5, 6, 7, 8, 9, 10, 11])
      [7] = .ok (strCodes "ok") ∧
    lookupKey (replaceFirst encSuffix (strCodes "b_encrypted"))
      (decryptObject [(strCodes "a_encrypted", WireValue.wstr (strCodes "!!")),
        (strCodes "b_encrypted",
         WireValue.wstr (encryptData (strCodes "ok") [7]
           [0, 1, 2, 3, 4, 5, 6, 7, 8, 9, 10, 11]))] [7]) =
      some (WireValue.wstr (strCodes "ok")) ∧
    lookupKey (replaceFirst encSuffix (strCodes "a_encrypted"))
      (decryptObject [(strCodes "a_encrypted", WireValue.wstr (strCodes "!!")),
        (strCodes "b_encrypted",
         WireValue.wstr (encryptData (strCodes "ok") [7]
           [0, 1, 2, 3, 4, 5, 6, 7, 8, 9, 10, 11]))] [7]) =
      some (WireValue.wstr sentinel) :=
  ⟨by decide, by decide, by decide,
    (claim_C5_field_isolation _ [7] (by decide)).1 (strCodes "b_encrypted")
      (encryptData (strCodes "ok") [7] [0, 1, 2, 3, 4, 5, 6, 7, 8, 9, 10, 11])
      (strCodes "ok") (by decide) (by decide) (by decide) (by decide),
    (claim_C5_field_isolation _ [7] (by decide)).2 (strCodes "a_encrypted")
      (strCodes "!!") .invalidCharacter (by decide) (by decide) (by decide) (by decide)⟩

/-- C6 counterexample: a field whose value is `undefined` (absent) is skipped
by `encryptObject` entirely — the wire object contains no `a_encrypted` key at
all — rather than being encoded as a null wire value as the claim states. -/
theorem claim_C6_counterexample :
    encryptObject [(strCodes "a", PlainValue.pundef)] [7] (fun _ => []) = [] ∧
    lookupKey (strCodes "a_encrypted")
      (encryptObject [(strCodes "a", PlainValue.pundef)] [7] (fun _ => [])) = none := by
  constructor
  · decide
  · decide

/-- C6 (amended): a secret field whose value is the empty string or `null` is
encoded as a null wire value under its `*_encrypted` name; the cipher is
invoked exactly once per non-empty string field (so never for empty/null
fields); and `decryptObject` maps a null `*_encrypted` wire value back to null
under the bare name — so a null-or-empty field survives the round trip with no
cipher call.  A field that is absent (`undefined`), however, is skipped
entirely and produces no wire key (see the counterexample). -/
theorem claim_C6_amended :
    (∀ (obj : List (List Nat × PlainValue)) (key : List Nat) (nonces : Nat → List Nat)
      (k : List Nat), ((k, PlainValue.pnull) ∈ obj ∨ (k, PlainValue.pstr []) ∈ obj) →
      (k ++ encSuffix, WireValue.wnull) ∈ encryptObject obj key nonces) ∧
    (∀ (obj : List (List Nat × PlainValue)) (key : List Nat) (nonces : Nat → List Nat),
      encryptObjectCipherCalls obj key nonces =
        obj.countP (fun e => match e.2 with
          | PlainValue.pstr s => !(s == [])
          | _ => false)) ∧
    (∀ (encObj : List (List Nat × WireValue)) (key k : List Nat),
      (encObj.filterMap (fun e => decOutKey e.1)).Nodup →
      (k, WireValue.wnull) ∈ encObj → endsWithEncrypted k = true →
      lookupKey (replaceFirst encSuffix k) (decryptObject encObj key) =
        some WireValue.wnull) := by
  refine ⟨?_, ?_, ?_⟩
  · intro obj key nonces k h
    exact encryptObjectGo_null_mem obj key nonces 0 k h
  · intro obj key nonces
    unfold encryptObjectCipherCalls
    rw [encryptObjectGo_calls obj key nonces 0]
    omega
  · intro encObj key k hnd hmem hend
    unfold decryptObject
    rw [decryptObjectGo_lookup_enc encObj key [] k WireValue.wnull hnd hmem hend]
    rfl

theorem claim_C6_amended_witness :
    ((strCodes "notes", PlainValue.pstr []) ∈
        ([(strCodes "notes", PlainValue.pstr [])] : List (List Nat × PlainValue)) ∧
      (strCodes "notes" ++ encSuffix, WireValue.wnull) ∈
        encryptObject [(strCodes "notes", PlainValue.pstr [])] [7] (fun _ => [])) ∧
    encryptObjectCipherCalls
      [(strCodes "name", PlainValue.pstr (strCodes "GitHub")),
       (strCodes "notes", PlainValue.pstr []), (strCodes "desc", PlainValue.pnull)]
      [7] (fun _ => [0, 1, 2, 3, 4, 5, 6, 7, 8, 9, 10, 11]) = 1 ∧
    lookupKey (replaceFirst encSuffix (strCodes "x_encrypted"))
      (decryptObject [(strCodes "x_encrypted", WireValue.wnull)] [7]) =
      some WireValue.wnull := by
  refine ⟨⟨by decide, ?_⟩, ?_, ?_⟩
  · exact claim_C6_amended.1 [(strCodes "notes", PlainValue.pstr [])] [7] (fun _ => [])
      (strCodes "notes") (Or.inr (by decide))
  · have h := claim_C6_amended.2.1
      [(strCodes "name", PlainValue.pstr (strCodes "GitHub")),
       (strCodes "notes", PlainValue.pstr []), (strCodes "desc", PlainValue.pnull)]
      [7] (fun _ => [0, 1, 2, 3, 4, 5, 6, 7, 8, 9, 10, 11])
    rw [h]
    decide
  · exact claim_C6_amended.2.2 [(strCodes "x_encrypted", WireValue.wnull)] [7]
      (strCodes "x_encrypted") (by decide) (by decide) (by decide)

/-- C7 counterexample: the stored hash `$pbkdf2$100$!$!` is well-formed for
the regex (prefix, digits, nonempty salt and digest groups), so
`verifyPassword` reaches `fromBase64('!')`, and `atob` throws
`InvalidCharacterError`, which propagates out of `verifyPassword` uncaught —
refuting "returns false and never throws" for invalid base64 in the salt or
digest parts. -/
theorem claim_C7_counterexample :
    verifyPassword [] (strCodes "$pbkdf2$100$!$!") = .error .invalidCharacter := by
  decide

/-- C7 (amended): a stored hash with the wrong algorithm prefix, a malformed
structure or a non-numeric iteration count (anything the regex rejects)
verifies as false without throwing; but a structurally well-formed
`$pbkdf2$…$…$…` hash whose salt or digest part is not valid base64 makes
`verifyPassword` throw `fromBase64`'s `InvalidCharacterError` instead of
returning false. -/
theorem claim_C7_amended :
    (∀ pw s, parsePbkdf2 s = none → verifyPassword pw s = .ok false) ∧
    (∀ pw s i sB hB, startsWithPbkdf2 s = true → parsePbkdf2 s = some (i, sB, hB) →
      atob sB = none → verifyPassword pw s = .error .invalidCharacter) ∧
    (∀ pw s i sB hB salt, startsWithPbkdf2 s = true → parsePbkdf2 s = some (i, sB, hB) →
      atob sB = some salt → atob hB = none →
      verifyPassword pw s = .error .invalidCharacter) :=
  ⟨fun pw s h => verifyPassword_parse_none pw s h,
   fun pw s i sB hB h1 h2 h3 => verifyPassword_bad_salt pw s i sB hB h1 h2 h3,
   fun pw s i sB hB salt h1 h2 h3 h4 =>
     verifyPassword_bad_digest pw s i sB hB salt h1 h2 h3 h4⟩

theorem claim_C7_amended_witness :
    (parsePbkdf2 (strCodes "$pbkdf2$abc$x$y") = none ∧
      verifyPassword [] (strCodes "$pbkdf2$abc$x$y") = .ok false) ∧
    (parsePbkdf2 (strCodes "$pbkdf2$100$!$!") =
        some (100, strCodes "!", strCodes "!") ∧
      verifyPassword [] (strCodes "$pbkdf2$100$!$!") = .error .invalidCharacter) ∧
    (parsePbkdf2 (strCodes "$pbkdf2$100$AAAA$!") =
        some (100, strCodes "AAAA", strCodes "!") ∧
      verifyPassword [] (strCodes "$pbkdf2$100$AAAA$!") = .error .invalidCharacter) :=
  ⟨⟨by decide, claim_C7_amended.1 [] (strCodes "$pbkdf2$abc$x$y") (by decide)⟩,
   ⟨by decide, claim_C7_amended.2.1 [] (strCodes "$pbkdf2$100$!$!") 100
     (strCodes "!") (strCodes "!") (by decide) (by decide) (by decide)⟩,
   ⟨by decide, claim_C7_amended.2.2 [] (strCodes "$pbkdf2$100$AAAA$!") 100
     (strCodes "AAAA") (strCodes "!") [0, 0, 0] (by decide) (by decide) (by decide)
     (by decide)⟩⟩

/-- C8 counterexample: with a valid, unexpired, unused token in the database,
two concurrent redemption attempts interleaved so that both run their
validation SELECT before either runs its write batch BOTH report success —
the used-flag check and the mark-used write are separate statements, not one
transaction, so it is not the case that only one wins. -/
theorem claim_C8_counterexample :
    (interleavedDoubleRedeem
      ⟨[(7, [])], [], [⟨hashTokenModel (strCodes "tokentoken1"), 7, 1000, false⟩]⟩
      (strCodes "tokentoken1") (strCodes "newpassword12") (strCodes "newpassword13")
      [1] [2] 500).1 = .success ∧
    (interleavedDoubleRedeem
      ⟨[(7, [])], [], [⟨hashTokenModel (strCodes "tokentoken1"), 7, 1000, false⟩]⟩
      (strCodes "tokentoken1") (strCodes "newpassword12") (strCodes "newpassword13")
      [1] [2] 500).2.1 = .success := by
  constructor
  · decide
  · decide

/-- C8 (amended): redeeming a valid, unexpired, unused reset token succeeds on
the first call — updating the user's password hash, deleting all of that
user's sessions, and marking the token used (those three writes are one atomic
batch) — and a second, subsequent redemption of the same token fails with the
token-already-used rejection.  The validation SELECT and the write batch are
however separate statements, so under concurrent interleaved redemption both
attempts can succeed (see the counterexample). -/
theorem claim_C8_amended (db : Db) (tok pw salt : List Nat) (now : Nat)
    (r : ResetTokenRecord) (pw2 salt2 : List Nat) (now2 : Nat)
    (hl1 : ¬ tok.length < 10) (hl2 : ¬ pw.length < 12) (hl3 : ¬ pw2.length < 12)
    (hf : findToken db (hashTokenModel tok) = some r)
    (hu : r.used = false) (he : ¬ r.expiresAt < now) :
    (resetPassword db tok pw salt now).1 = .success ∧
    (resetPassword db tok pw salt now).2.users =
      (db.users.map fun u => if u.1 = r.userId then (u.1, hashPassword salt pw) else u) ∧
    (∀ s ∈ (resetPassword db tok pw salt now).2.sessions, s.2 ≠ r.userId) ∧
    (∀ x ∈ (resetPassword db tok pw salt now).2.resetTokens,
      x.tokenHash = hashTokenModel tok → x.used = true) ∧
    (resetPassword (resetPassword db tok pw salt now).2 tok pw2 salt2 now2).1 =
      .errTokenUsed := by
  have hfst := resetPassword_first db tok pw salt now r hl1 hl2 hf hu he
  refine ⟨?_, ?_, ?_, ?_, ?_⟩
  · rw [hfst]
  · rw [hfst]
    exact applyResetBatch_users db (hashTokenModel tok) r.userId (hashPassword salt pw)
  · rw [hfst]
    exact applyResetBatch_sessions db (hashTokenModel tok) r.userId (hashPassword salt pw)
  · rw [hfst]
    exact applyResetBatch_token_used db (hashTokenModel tok) r.userId
      (hashPassword salt pw)
  · exact resetPassword_second db tok pw salt now r pw2 salt2 now2 hl1 hl2 hl3 hf hu he

theorem claim_C8_amended_witness :
    findToken ⟨[(7, [])], [], [⟨hashTokenModel (strCodes "tokentoken1"), 7, 1000, false⟩]⟩
      (hashTokenModel (strCodes "tokentoken1")) =
      some ⟨hashTokenModel (strCodes "tokentoken1"), 7, 1000, false⟩ ∧
    (resetPassword
      ⟨[(7, [])], [], [⟨hashTokenModel (strCodes "tokentoken1"), 7, 1000, false⟩]⟩
      (strCodes "tokentoken1") (strCodes "newpassword12") [1] 500).1 = .success ∧
    (resetPassword (resetPassword
        ⟨[(7, [])], [], [⟨hashTokenModel (strCodes "tokentoken1"), 7, 1000, false⟩]⟩
        (strCodes "tokentoken1") (strCodes "newpassword12") [1] 500).2
      (strCodes "tokentoken1") (strCodes "newpassword13") [2] 600).1 = .errTokenUsed :=
  ⟨by decide,
   (claim_C8_amended
     ⟨[(7, [])], [], [⟨hashTokenModel (strCodes "tokentoken1"), 7, 1000, false⟩]⟩
     (strCodes "tokentoken1") (strCodes "newpassword12") [1] 500
     ⟨hashTokenModel (strCodes "tokentoken1"), 7, 1000, false⟩
     (strCodes "newpassword13") [2] 600
     (by decide) (by decide) (by decide) (by decide) (by decide) (by decide)).1,
   (claim_C8_amended
     ⟨[(7, [])], [], [⟨hashTokenModel (strCodes "tokentoken1"), 7, 1000, false⟩]⟩
     (strCodes "tokentoken1") (strCodes "newpassword12") [1] 500
     ⟨hashTokenModel (strCodes "tokentoken1"), 7, 1000, false⟩
     (strCodes "newpassword13") [2] 600
     (by decide) (by decide) (by decide) (by decide) (by decide) (by decide)).2.2.2.2⟩

/-- C10: the result object of `decryptObject` has duplicate-free keys, and a
name is a key of the result exactly when it is the bare name (first
`'_encrypted'` occurrence removed) of some `*_encrypted` input key, or it is
one of the pass-through keys `id`/`user_id`/`date_modified` and present among
the input keys; every other input field is dropped and contributes nothing. -/
theorem claim_C10_result_keys (encObj : List (List Nat × WireValue)) (key : List Nat) :
    ((decryptObject encObj key).map Prod.fst).Nodup ∧
    (∀ n, n ∈ (decryptObject encObj key).map Prod.fst ↔
      (∃ e ∈ encObj, endsWithEncrypted e.1 = true ∧ n = replaceFirst encSuffix e.1) ∨
      (n ∈ passthroughKeys ∧ endsWithEncrypted n = false ∧ ∃ v, (n, v) ∈ encObj)) := by
  constructor
  · exact nodup_keys_decryptObjectGo encObj key [] (by simp)
  · intro n
    unfold decryptObject
    rw [keys_decryptObjectGo encObj key [] n]
    simp only [List.map_nil, List.not_mem_nil, false_or]
    constructor
    · rintro ⟨e, he, hout⟩
      rcases e with ⟨k0, v0⟩
      unfold decOutKey at hout
      by_cases h1 : endsWithEncrypted k0 = true
      · rw [if_pos h1] at hout
        exact Or.inl ⟨(k0, v0), he, h1, (Option.some.inj hout).symm⟩
      · rw [if_neg h1] at hout
        by_cases h2 : k0 ∈ passthroughKeys
        · rw [if_pos h2] at hout
          have hk : k0 = n := Option.some.inj hout
          subst hk
          exact Or.inr ⟨h2, by simpa using h1, v0, he⟩
        · rw [if_neg h2] at hout
          exact absurd hout (by simp)
    · rintro (⟨e, he, hend, hn⟩ | ⟨hp, hne, v, hv⟩)
      · exact ⟨e, he, by simp [decOutKey, hend, hn]⟩
      · exact ⟨(n, v), hv, by simp [decOutKey, hne, hp]⟩

end Accmanager
